import Mathlib

/-!
# Verification development for the tallier metrics daemon

Shallow embedding of `src/tallier.py` (a UDP statsd-style aggregation daemon)
together with theorems settling the specification claims.

Modelling conventions:
* Python byte strings are `List Char` (abbreviated `Str` below); the datagrams
  handled by the daemon are ASCII.
* Python floats are modelled as exact rationals `ℚ`.  Every quantity the claims
  mention (counter sums, timer values, rates in `(0,1]`, report statistics) is
  produced by decimal input text and small arithmetic, where IEEE-754 doubles
  and exact rationals agree; in particular the percentile index
  `int(len(values) * 90 / 100.0)` equals the exact `len * 90 / 100` floor
  for every list length below `2^45`, far beyond anything reachable.
* Python dicts are association lists kept in insertion order with unique keys;
  `defaultdict(float)` reads default to `0`.
* A raised exception that the code catches is modelled with `Option`
  (`none` = the exception), and the uncaught-exception path of the master's
  scheduler loop is modelled with an explicit error outcome.
-/

set_option maxHeartbeats 1000000
set_option maxRecDepth 10000

namespace Tallier

abbrev Str := List Char

/-- Python 2 whitespace, as recognized by `str.split()` / `str.strip()`. -/
def isPyWs (c : Char) : Bool :=
  c = ' ' || c = '\t' || c = '\n' || c = '\x0b' || c = '\x0c' || c = '\r'

/-- Negation of `isPyWs` (a non-whitespace character). -/
def nonWs (c : Char) : Bool := !isPyWs c

/-- Value of one hexadecimal digit character. -/
def hexVal (c : Char) : Option Nat :=
  if '0' ≤ c && c ≤ '9' then some (c.toNat - 48)
  else if 'a' ≤ c && c ≤ 'f' then some (c.toNat - 87)
  else if 'A' ≤ c && c ≤ 'F' then some (c.toNat - 55)
  else none

def isHexCh (c : Char) : Bool := (hexVal c).isSome

def hexDigitsVal (ds : Str) : Nat :=
  ds.foldl (fun a c => a * 16 + (hexVal c).getD 0) 0

/-- Tail allowed after the digits of a Python 2 `int(s, 16)` literal:
an optional long suffix `l`/`L` followed by trailing whitespace. -/
def pyIntHexTail (r : Str) : Bool :=
  match r with
  | [] => true
  | c :: r2 => if c = 'l' || c = 'L' then r2.all isPyWs else (c :: r2).all isPyWs

def pyIntHexMag (s : Str) : Option Nat :=
  let ds := s.takeWhile isHexCh
  if ds.isEmpty then none
  else if pyIntHexTail (s.drop ds.length) then some (hexDigitsVal ds) else none

/-- Python 2 `int(s, 16)`: optional leading whitespace, optional sign, one or
more hex digits, optional `l`/`L` suffix, optional trailing whitespace.
`none` models a raised `ValueError`. -/
def pyIntHex (s0 : Str) : Option Int :=
  match s0.dropWhile isPyWs with
  | '-' :: r => (pyIntHexMag r).map (fun n => -(n : Int))
  | '+' :: r => (pyIntHexMag r).map (fun n => (n : Int))
  | r => (pyIntHexMag r).map (fun n => (n : Int))

/-- Python slice `s[:n]` for a possibly negative `n`. -/
def pyTakeSlice (s : Str) (n : Int) : Str :=
  if 0 ≤ n then s.take n.toNat else s.take ((s.length : Int) + n).toNat

def pySplitlinesAux : Str → Str → List Str
  | [], cur => if cur.isEmpty then [] else [cur.reverse]
  | '\r' :: '\n' :: rest, cur => cur.reverse :: pySplitlinesAux rest []
  | '\r' :: rest, cur => cur.reverse :: pySplitlinesAux rest []
  | '\n' :: rest, cur => cur.reverse :: pySplitlinesAux rest []
  | c :: rest, cur => pySplitlinesAux rest (c :: cur)

/-- Python 2 `str.splitlines()`: splits on `\n`, `\r` and `\r\n`; a trailing
terminator does not produce a final empty line. -/
def pySplitlines (s : Str) : List Str := pySplitlinesAux s []

def pySplitOnAux (sep : Char) : Str → Str → List Str
  | [], cur => [cur.reverse]
  | c :: rest, cur =>
    if c = sep then cur.reverse :: pySplitOnAux sep rest []
    else pySplitOnAux sep rest (c :: cur)

/-- Python `str.split(sep)` with a one-character separator (keeps empties). -/
def pySplitOn (sep : Char) (s : Str) : List Str := pySplitOnAux sep s []

/-- Python `str.split(sep, 1)` when `sep` occurs: the pieces before and after
the first occurrence. -/
def pySplitOnce (sep : Char) : Str → Str × Str
  | [] => ([], [])
  | c :: cs =>
    if c = sep then ([], cs)
    else
      let p := pySplitOnce sep cs
      (c :: p.1, p.2)

def pySplitWsAux : Str → Str → List Str
  | [], cur => if cur.isEmpty then [] else [cur.reverse]
  | c :: cs, cur =>
    if isPyWs c then
      (if cur.isEmpty then pySplitWsAux cs [] else cur.reverse :: pySplitWsAux cs [])
    else pySplitWsAux cs (c :: cur)

/-- Python `str.split()` (no argument): split on runs of whitespace, dropping
leading and trailing whitespace, never producing empty fields. -/
def pySplitWs (s : Str) : List Str := pySplitWsAux s []

/-- `'_'.join(tokens)`. -/
def joinUnd : List Str → Str
  | [] => []
  | [t] => t
  | t :: ts => t ++ '_' :: joinUnd ts

def isDigitCh (c : Char) : Bool := '0' ≤ c && c ≤ '9'

def decDigitsVal (ds : Str) : Nat :=
  ds.foldl (fun a c => a * 10 + (c.toNat - 48)) 0

def pyFloatExpMag (s : Str) : Option Nat :=
  if s.isEmpty then none
  else if s.all isDigitCh then some (decDigitsVal s) else none

def pyFloatExp : Str → Option Int
  | '+' :: r => (pyFloatExpMag r).map (fun n => (n : Int))
  | '-' :: r => (pyFloatExpMag r).map (fun n => -(n : Int))
  | r => (pyFloatExpMag r).map (fun n => (n : Int))

/-- What may follow the mantissa of a float literal: nothing, or an exponent. -/
def pyFloatTail : Str → Option Int
  | [] => some 0
  | 'e' :: r => pyFloatExp r
  | 'E' :: r => pyFloatExp r
  | _ => none

def pyFloatMag (s : Str) : Option ℚ :=
  let ip := s.takeWhile isDigitCh
  let r1 := s.drop ip.length
  match r1 with
  | '.' :: r2 =>
    let fp := r2.takeWhile isDigitCh
    let r3 := r2.drop fp.length
    if ip.length + fp.length = 0 then none
    else
      (pyFloatTail r3).map (fun e =>
        ((decDigitsVal ip : ℚ) + (decDigitsVal fp : ℚ) / ((10 : ℚ) ^ fp.length)) * (10 : ℚ) ^ e)
  | _ =>
    if ip.isEmpty then none
    else (pyFloatTail r1).map (fun e => (decDigitsVal ip : ℚ) * (10 : ℚ) ^ e)

/-- Python `float(s)` on finite decimal literals: optional surrounding
whitespace, optional sign, decimal mantissa with optional fraction, optional
exponent.  (The `inf`/`nan` spellings are not representable in `ℚ` and are
treated as parse failures; no claim involves them.)  `none` models a raised
`ValueError`. -/
def pyFloat (s0 : Str) : Option ℚ :=
  let s1 := ((s0.dropWhile isPyWs).reverse.dropWhile isPyWs).reverse
  match s1 with
  | '-' :: r => (pyFloatMag r).map Neg.neg
  | '+' :: r => pyFloatMag r
  | r => pyFloatMag r

/-- Characters kept by `Sample._VALID_CHAR_PATTERN = [A-Za-z0-9._-]`. -/
def isValidKeyCh (c : Char) : Bool :=
  ('A' ≤ c && c ≤ 'Z') || ('a' ≤ c && c ≤ 'z') || ('0' ≤ c && c ≤ '9') ||
    c = '.' || c = '_' || c = '-'

/-- The backslash substitution `key.replace('\\', '-')`, one character. -/
def bsDash (c : Char) : Char := if c = '\\' then '-' else c

/-- `Sample.COUNTER` / `Sample.TIMER`. -/
inductive ValueType where
  | counter
  | timer
  deriving DecidableEq

/-- A parsed sample: key, value, value type and sample rate
(`class Sample`). -/
structure Sample where
  key : Str
  value : ℚ
  value_type : ValueType
  sample_rate : ℚ
  deriving DecidableEq

namespace Sample

/-- `Sample._normalize_key`:
`'_'.join(key.split()).replace('\\', '-')` filtered to the valid characters. -/
def normalizeKey (key : Str) : Str :=
  ((joinUnd (pySplitWs key)).map bsDash).filter isValidKeyCh

/-- `Sample._parse_part`: `<value> '|' <value_type> ('@' <sample_rate>)?`.
`none` models the raised `ValueError` that `Sample.parse` catches. -/
def parsePart (key : Str) (part : Str) : Option Sample :=
  match pySplitOn '|' part with
  | [f0, f1] =>
    match pyFloat f0 with
    | none => none
    | some value =>
      if f1.contains '@' then
        let p := pySplitOnce '@' f1
        match pyFloat p.2 with
        | none => none
        | some rate =>
          if 0 < rate ∧ rate ≤ 1 then
            some ⟨key, value,
              (if p.1 = "ms".data then ValueType.timer else ValueType.counter), rate⟩
          else none
      else
        some ⟨key, value,
          (if f1 = "ms".data then ValueType.timer else ValueType.counter), 1⟩
  | _ => none

/-- The samples produced by one (effective) line: split on `:`, normalize the
first field as the key, parse every remaining field, silently dropping the
parts whose parse raises. -/
def lineSamples (metric : Str) : List Sample :=
  match pySplitOn ':' metric with
  | [] => []
  | rawKey :: parts => parts.filterMap (parsePart (normalizeKey rawKey))

/-- The line loop of `Sample.parse`, carrying the `previous` effective line
used by the `^hh` compression form. -/
def parseLoop : List Str → Str → List Sample
  | [], _ => []
  | metric :: rest, previous =>
    if 2 < metric.length ∧ metric.head? = some '^' then
      match pyIntHex ((metric.drop 1).take 2) with
      | none => parseLoop rest previous
      | some n =>
        let m := pyTakeSlice previous n ++ metric.drop 3
        lineSamples m ++ parseLoop rest m
    else lineSamples metric ++ parseLoop rest metric

/-- `Sample.parse`: a datagram into the list of samples. -/
def parse (datagram : Str) : List Sample :=
  parseLoop (pySplitlines datagram) []

end Sample

/-- Spec-side restatement of the decompression pass: the list of effective
lines of a datagram.  A line whose `^hh` header fails to parse is skipped and
leaves the previous effective line unchanged; otherwise the effective line
(compressed or not) becomes the `previous` for the rest of the datagram. -/
def effLinesLoop : List Str → Str → List Str
  | [], _ => []
  | metric :: rest, previous =>
    if 2 < metric.length ∧ metric.head? = some '^' then
      match pyIntHex ((metric.drop 1).take 2) with
      | none => effLinesLoop rest previous
      | some n =>
        let m := pyTakeSlice previous n ++ metric.drop 3
        m :: effLinesLoop rest m
    else metric :: effLinesLoop rest metric

def effLines (datagram : Str) : List Str := effLinesLoop (pySplitlines datagram) []

/-- The claim's reading of the compression header: exactly two hexadecimal
digit characters, no sign, no whitespace. -/
def claimHex2 (s : Str) : Option Nat :=
  match s with
  | [c1, c2] =>
    match hexVal c1, hexVal c2 with
    | some h1, some h2 => some (16 * h1 + h2)
    | _, _ => none
  | _ => none

/-- Effective lines as the claim describes them: strict two-hex-digit header,
effective line = the first `n` characters of the previous effective line
followed by the current line from position 3 on. -/
def claimEffLinesLoop : List Str → Str → List Str
  | [], _ => []
  | metric :: rest, previous =>
    if 2 < metric.length ∧ metric.head? = some '^' then
      match claimHex2 ((metric.drop 1).take 2) with
      | none => claimEffLinesLoop rest previous
      | some n =>
        let m := previous.take n ++ metric.drop 3
        m :: claimEffLinesLoop rest m
    else metric :: claimEffLinesLoop rest metric

def claimEffLines (datagram : Str) : List Str :=
  claimEffLinesLoop (pySplitlines datagram) []

/-- The parse the claim describes (used only to compare with the code). -/
def claimParse (datagram : Str) : List Sample :=
  (claimEffLines datagram).flatMap Sample.lineSamples

/-- One step of collapsing whitespace runs: the flag records whether the
previous character was whitespace (so a run yields a single `'_'`). -/
def collapseWsAux : Bool → Str → Str
  | _, [] => []
  | inRun, c :: cs =>
    if isPyWs c then
      (if inRun then collapseWsAux true cs else '_' :: collapseWsAux true cs)
    else c :: collapseWsAux false cs

/-- Collapse every run of whitespace (including leading/trailing runs) to a
single underscore. -/
def collapseWs (s : Str) : Str := collapseWsAux false s

def ltrimWs (s : Str) : Str := s.dropWhile isPyWs

def rtrimWs (s : Str) : Str := (s.reverse.dropWhile isPyWs).reverse

/-- Normalization as the claim literally states it: every whitespace run
(also at the ends) becomes `'_'`, backslashes become `'-'`, then the invalid
characters are removed. -/
def claimNormalizeKey (key : Str) : Str :=
  ((collapseWs key).map bsDash).filter isValidKeyCh

/-- Normalization as amended: leading and trailing whitespace is removed,
interior whitespace runs collapse to a single underscore, backslashes become
`'-'`, then the invalid characters are removed. -/
def amendedNormalizeKey (key : Str) : Str :=
  ((collapseWs (rtrimWs (ltrimWs key))).map bsDash).filter isValidKeyCh

/-! ## Accumulation bundles and the Listener -/

/-- A counter dict (`collections.defaultdict(float)`), in insertion order. -/
abbrev Counters := List (Str × ℚ)

/-- A timer dict mapping keys to value lists, in insertion order. -/
abbrev Timers := List (Str × List ℚ)

def assocLookup {α : Type} : List (Str × α) → Str → Option α
  | [], _ => none
  | (k0, v) :: rest, k => if k0 = k then some v else assocLookup rest k

/-- Read of a `defaultdict(float)`: missing keys default to `0`. -/
def countersGet (c : Counters) (k : Str) : ℚ := (assocLookup c k).getD 0

/-- `c[k] += v` on a `defaultdict(float)` (inserts `0 + v` when absent). -/
def assocIncr : Counters → Str → ℚ → Counters
  | [], k, v => [(k, v)]
  | (k0, v0) :: rest, k, v =>
    if k0 = k then (k0, v0 + v) :: rest else (k0, v0) :: assocIncr rest k v

/-- `c[k] = v` (plain dict assignment). -/
def assocSet : Counters → Str → ℚ → Counters
  | [], k, v => [(k, v)]
  | (k0, v0) :: rest, k, v =>
    if k0 = k then (k0, v) :: rest else (k0, v0) :: assocSet rest k v

/-- Read of a timer dict: missing keys give the empty list. -/
def timersGet (t : Timers) (k : Str) : List ℚ := (assocLookup t k).getD []

/-- `t.setdefault(k, []).append(v)`. -/
def timersAppend : Timers → Str → ℚ → Timers
  | [], k, v => [(k, [v])]
  | (k0, l) :: rest, k, v =>
    if k0 = k then (k0, l ++ [v]) :: rest else (k0, l) :: timersAppend rest k v

/-- `t.setdefault(k, []).extend(vs)`. -/
def timersExtend : Timers → Str → List ℚ → Timers
  | [], k, vs => [(k, vs)]
  | (k0, l) :: rest, k, vs =>
    if k0 = k then (k0, l ++ vs) :: rest else (k0, l) :: timersExtend rest k vs

/-- The key `'tallier._key_counts.%s' % key`. -/
def keyCountKey (k : Str) : Str := "tallier._key_counts.".data ++ k

/-- The key `'tallier.messages.child_%s' % listener_id`. -/
def msgChildKey (i : Nat) : Str := "tallier.messages.child_".data ++ (Nat.repr i).data

/-- The key `'tallier.bytes.child_%s' % listener_id`. -/
def byteChildKey (i : Nat) : Str := "tallier.bytes.child_".data ++ (Nat.repr i).data

/-- The mutable state of a `Listener`: the live accumulation bundle
(`current_samples`, a pair of a counter dict and a timer dict) and the
message/byte totals with their last-flush snapshots. -/
structure Listener where
  listener_id : Nat
  counters : Counters
  timers : Timers
  message_count : Nat
  last_message_count : Nat
  byte_count : Nat
  last_byte_count : Nat
  deriving DecidableEq

/-- `Listener._handle_sample`: counters accumulate `value / sample_rate`,
timers append `value`, and in both cases the per-key observation counter
`tallier._key_counts.<key>` is incremented by one. -/
def Listener.handleSample (l : Listener) (s : Sample) : Listener :=
  let l1 :=
    if s.value_type = ValueType.counter then
      { l with counters := assocIncr l.counters s.key (s.value / s.sample_rate) }
    else
      { l with timers := timersAppend l.timers s.key s.value }
  { l1 with counters := assocIncr l1.counters (keyCountKey s.key) 1 }

/-- `Listener.flush`: swap the live bundle for a fresh empty one, embed the
per-interval message/byte deltas into the returned bundle's counters, and
advance the `last_*` snapshots.  Returns (flushed bundle, new state). -/
def Listener.flush (l : Listener) : (Counters × Timers) × Listener :=
  let mc := l.message_count
  let bc := l.byte_count
  let flushedCounters :=
    assocSet
      (assocSet l.counters (msgChildKey l.listener_id)
        ((mc : ℚ) - (l.last_message_count : ℚ)))
      (byteChildKey l.listener_id) ((bc : ℚ) - (l.last_byte_count : ℚ))
  ((flushedCounters, l.timers),
   { l with
      counters := []
      timers := []
      last_message_count := mc
      last_byte_count := bc })

/-! ## FrequencyCounter -/

/-- Insertion into a sorted list (used to model Python's `sorted`). -/
def insIns {α : Type} (le : α → α → Bool) (x : α) : List α → List α
  | [] => [x]
  | y :: ys => if le x y then x :: y :: ys else y :: insIns le x ys

/-- Insertion sort modelling Python's `sorted(..., key=...)`.  The claims
never depend on the order of ties (the spec leaves it unspecified). -/
def insSort {α : Type} (le : α → α → Bool) : List α → List α
  | [] => []
  | x :: xs => insIns le x (insSort le xs)

/-- `class FrequencyCounter`: approximate top-K counts over string keys with
bounded memory (`oversample_size = size`). -/
structure FrequencyCounter where
  size : Nat
  oversample_size : Nat
  total_observed : ℚ
  frequencies : List (Str × ℚ)
  deriving DecidableEq

def FrequencyCounter.init (size : Nat) : FrequencyCounter :=
  ⟨size, size, 0, []⟩

/-- `FrequencyCounter.cleanup(num)`: delete the `num` lowest-count entries. -/
def FrequencyCounter.cleanup (fc : FrequencyCounter) (num : Nat) : FrequencyCounter :=
  let sorted := insSort (fun a b => decide (a.2 ≤ b.2)) fc.frequencies
  let toRemove := (sorted.take num).map Prod.fst
  { fc with frequencies := fc.frequencies.filter (fun p => !(toRemove.contains p.1)) }

/-- One iteration of the batch loop:
`total_observed += value; frequencies[key] += value`. -/
def FrequencyCounter.addBatchEntry (fc : FrequencyCounter) (kv : Str × ℚ) : FrequencyCounter :=
  { fc with
     total_observed := fc.total_observed + kv.2
     frequencies := assocIncr fc.frequencies kv.1 kv.2 }

/-- `FrequencyCounter._sample_batch`: ingest the batch in descending count
order, then evict down to `size + oversample_size` entries if exceeded. -/
def FrequencyCounter.sampleBatch (fc : FrequencyCounter) (batch : List (Str × ℚ)) :
    FrequencyCounter :=
  let fc1 := (insSort (fun a b => decide (b.2 ≤ a.2)) batch).foldl
    FrequencyCounter.addBatchEntry fc
  if fc1.size + fc1.oversample_size < fc1.frequencies.length then
    fc1.cleanup (fc1.frequencies.length - fc1.size - fc1.oversample_size)
  else fc1

/-- The local counting dict built by `FrequencyCounter.sample`. -/
def chunkBatch (chunk : List Str) : List (Str × ℚ) :=
  chunk.foldl (fun b k => assocIncr b k 1) []

/-- `FrequencyCounter.sample(chunk)`. -/
def FrequencyCounter.sample (fc : FrequencyCounter) (chunk : List Str) : FrequencyCounter :=
  fc.sampleBatch (chunkBatch chunk)

/-- `FrequencyCounter.top(n)`. -/
def FrequencyCounter.top (fc : FrequencyCounter) (n : Nat) : List (Str × ℚ) :=
  (insSort (fun a b => decide (b.2 ≤ a.2)) fc.frequencies).take n

/-- `FrequencyCounter.coverage`: (sum of retained frequencies, total ever
observed). -/
def FrequencyCounter.coverage (fc : FrequencyCounter) : ℚ × ℚ :=
  ((fc.frequencies.map Prod.snd).sum, fc.total_observed)

/-- One call to the counter, as the claims quantify over call sequences. -/
inductive FreqCall where
  | sample (chunk : List Str)
  | sampleBatch (batch : List (Str × ℚ))

def applyFreqCall (fc : FrequencyCounter) : FreqCall → FrequencyCounter
  | FreqCall.sample chunk => fc.sample chunk
  | FreqCall.sampleBatch batch => fc.sampleBatch batch

/-- The keys of an association list are distinct (the dict representation
invariant). -/
def nodupKeys (l : List (Str × ℚ)) : Prop := (l.map Prod.fst).Nodup

/-- Sum of the stored values of an association list (the first component of
`FrequencyCounter.coverage`). -/
def sumVals (l : List (Str × ℚ)) : ℚ := (l.map Prod.snd).sum

/-- Every count handed to one call is nonnegative (`sample` counts
occurrences, so always; a `_sample_batch` caller must pass nonnegative
counts). -/
def freqCallNonneg : FreqCall → Prop
  | FreqCall.sample _ => True
  | FreqCall.sampleBatch batch => ∀ v ∈ batch.map Prod.snd, 0 ≤ v

/-! ## Master: merge of flushed bundles, report, scheduler -/

/-- `s` begins with `pre` (Python `str.startswith`). -/
def strStarts : Str → Str → Bool
  | [], _ => true
  | _ :: _, [] => false
  | p :: ps, c :: cs => p = c && strStarts ps cs

def kcPre : Str := "tallier._key_counts.".data

def msgPre : Str := "tallier.messages.child_".data

def bytePre : Str := "tallier.bytes.child_".data

/-- The accumulator of `Master._flush`'s merge loop. -/
structure MergeAcc where
  agg_counters : Counters
  agg_timers : Timers
  stat_key_counts : Counters
  total_message_count : ℚ
  total_byte_count : ℚ
  deriving DecidableEq

/-- Processing of one counter entry of one flushed bundle in
`Master._flush`: note that `stat_key_counts[stripped] = value` is an
assignment, while `agg_counters[key] += value` accumulates. -/
def mergeEntry (acc : MergeAcc) (kv : Str × ℚ) : MergeAcc :=
  let acc1 :=
    if strStarts kcPre kv.1 then
      { acc with stat_key_counts := assocSet acc.stat_key_counts (kv.1.drop kcPre.length) kv.2 }
    else acc
  let acc2 := { acc1 with agg_counters := assocIncr acc1.agg_counters kv.1 kv.2 }
  if strStarts msgPre kv.1 then
    { acc2 with total_message_count := acc2.total_message_count + kv.2 }
  else if strStarts bytePre kv.1 then
    { acc2 with total_byte_count := acc2.total_byte_count + kv.2 }
  else acc2

def mergeTimerEntry (acc : MergeAcc) (kv : Str × List ℚ) : MergeAcc :=
  { acc with agg_timers := timersExtend acc.agg_timers kv.1 kv.2 }

/-- Merge of one flushed bundle (counters first, then timers). -/
def mergeBundle (acc : MergeAcc) (bundle : Counters × Timers) : MergeAcc :=
  bundle.2.foldl mergeTimerEntry (bundle.1.foldl mergeEntry acc)

/-- The merge loop of `Master._flush` over the workers' flushed bundles, in
pipe order. -/
def mergeFlushResults (results : List (Counters × Timers)) : MergeAcc :=
  results.foldl mergeBundle ⟨[], [], [], 0, 0⟩

/-- `agg_counters` right before report construction: the merged counters with
the message/byte totals assigned. -/
def masterAggCounters (results : List (Counters × Timers)) : Counters :=
  let m := mergeFlushResults results
  assocSet (assocSet m.agg_counters "tallier.messages.total".data m.total_message_count)
    "tallier.bytes.total".data m.total_byte_count

/-- Spec-side: the value assigned for key `k` by the entries of one bundle's
counter dict, last assignment winning. -/
def lastAssigned (entries : Counters) (k : Str) : Option ℚ :=
  entries.foldl (fun acc p => if p.1 = k then some p.2 else acc) none

/-- Spec-side: the value for key `k` coming from the last flushed bundle that
contains `k`. -/
def lastBundleValue (results : List (Counters × Timers)) (k : Str) : Option ℚ :=
  results.foldl
    (fun acc b =>
      match lastAssigned b.1 k with
      | some v => some v
      | none => acc)
    none

/-- Spec-side: total of the values stored under key `k` in one bundle. -/
def keySum (entries : Counters) (k : Str) : ℚ :=
  ((entries.filter (fun p => p.1 == k)).map Prod.snd).sum

/-- Spec-side: total of the values stored under key `k` over all bundles. -/
def bundlesKeySum (results : List (Counters × Timers)) (k : Str) : ℚ :=
  (results.map (fun b => keySum b.1 k)).sum

/-- Override of one optional value by a later one (last assignment wins). -/
def owrite (x y : Option ℚ) : Option ℚ :=
  match y with
  | some v => some v
  | none => x

/-- One line of the graphite report (`'%s %f %d' % (name, value, now)`),
kept structured: name, numeric value, timestamp. -/
structure ReportLine where
  name : Str
  value : ℚ
  ts : ℚ
  deriving DecidableEq

/-- The two report lines per counter key. -/
def counterLines (now interval : ℚ) (kv : Str × ℚ) : List ReportLine :=
  [⟨"stats.".data ++ kv.1, kv.2 / interval, now⟩,
   ⟨"stats_counts.".data ++ kv.1, kv.2, now⟩]

/-- The six report lines per timer key; `values` is sorted ascending in place
and the percentile is fixed to 90, indexed by `int(len * 90 / 100.0)`. -/
def timerLines (now interval : ℚ) (kv : Str × List ℚ) : List ReportLine :=
  let key := kv.1
  let values := insSort (fun a b => decide (a ≤ b)) kv.2
  [⟨"stats.timers.".data ++ key ++ ".lower".data, values.getD 0 0, now⟩,
   ⟨"stats.timers.".data ++ key ++ ".upper".data, values.getD (values.length - 1) 0, now⟩,
   ⟨"stats.timers.".data ++ key ++ ".upper_90".data,
     values.getD (values.length * 90 / 100) 0, now⟩,
   ⟨"stats.timers.".data ++ key ++ ".mean".data, values.sum / (values.length : ℚ), now⟩,
   ⟨"stats.timers.".data ++ key ++ ".count".data, (values.length : ℚ), now⟩,
   ⟨"stats.timers.".data ++ key ++ ".rate".data, (values.length : ℚ) / interval, now⟩]

/-- `Master._build_graphite_report`: the report lines and the updated
`num_stats`.  `interval = now - last_flush_time`. -/
def buildGraphiteReport (aggCounters : Counters) (aggTimers : Timers)
    (now lastFlushTime : ℚ) (numStats numWorkers : Nat) : List ReportLine × Nat :=
  let interval := now - lastFlushTime
  let numStatsNew := numStats + aggCounters.length + aggTimers.length
  (aggCounters.flatMap (counterLines now interval) ++
     aggTimers.flatMap (timerLines now interval) ++
     [⟨"stats.tallier.num_stats".data, (numStatsNew : ℚ), now⟩,
      ⟨"stats.tallier.num_workers".data, (numWorkers : ℚ), now⟩],
   numStatsNew)

/-- The exceptions relevant to the scheduler loop: `socket.error` raised by
`socket.connect` / `socket.send`.  (`KeyboardInterrupt`, the only exception
`Master.start` catches, is not among them.) -/
inductive PyExc where
  | socketError
  deriving DecidableEq

/-- Outcome of the network during one flush: whether the TCP connect to the
graphite sink succeeds and whether the send succeeds. -/
structure SinkBehavior where
  connectOk : Bool
  sendOk : Bool
  deriving DecidableEq

/-- `Master._send_to_graphite`: connect, send, close.  The body has no
`try`/`except` around `connect`/`send`, so a `socket.error` from either
propagates to the caller. -/
def sendToGraphite (net : SinkBehavior) : Except PyExc Unit :=
  if !net.connectOk then Except.error PyExc.socketError
  else if !net.sendOk then Except.error PyExc.socketError
  else Except.ok ()

/-- The scheduler-relevant state of `Master.start`'s loop: the next flush
deadline, the interval, and how many times `_send_to_graphite` was entered. -/
structure SchedState where
  next_flush_time : ℚ
  flush_interval : ℚ
  sends : Nat
  deriving DecidableEq

/-- The flush iterations of `Master.start`'s `while True` loop, one entry of
`nets` per due flush.  On success the deadline advances by exactly one
interval; an uncaught `socket.error` from `_send_to_graphite` leaves the loop
(only `KeyboardInterrupt` is caught), so later flushes never run and the
failed report is not retried. -/
def schedulerRun : List SinkBehavior → SchedState → SchedState × Option PyExc
  | [], st => (st, none)
  | net :: rest, st =>
    let st1 : SchedState := { st with sends := st.sends + 1 }
    match sendToGraphite net with
    | Except.error e => (st1, some e)
    | Except.ok _ =>
      schedulerRun rest { st1 with next_flush_time := st1.next_flush_time + st1.flush_interval }

/-! ## Association list lemmas -/

theorem countersGet_incr_self (c : Counters) (k : Str) (v : ℚ) :
    countersGet (assocIncr c k v) k = countersGet c k + v := by
  induction c with
  | nil => simp [assocIncr, countersGet, assocLookup]
  | cons p rest ih =>
    obtain ⟨k0, v0⟩ := p
    by_cases h : k0 = k
    · subst h
      simp [assocIncr, countersGet, assocLookup]
    · simp only [assocIncr, if_neg h]
      simpa [countersGet, assocLookup, if_neg h] using ih

theorem countersGet_incr_ne (c : Counters) (k k' : Str) (v : ℚ) (h : k' ≠ k) :
    countersGet (assocIncr c k v) k' = countersGet c k' := by
  induction c with
  | nil => simp [assocIncr, countersGet, assocLookup, if_neg (Ne.symm h)]
  | cons p rest ih =>
    obtain ⟨k0, v0⟩ := p
    by_cases h0 : k0 = k
    · subst h0
      simp [assocIncr, countersGet, assocLookup, if_neg (Ne.symm h)]
    · by_cases h1 : k0 = k'
      · simp [assocIncr, if_neg h0, countersGet, assocLookup, if_pos h1]
      · simp only [assocIncr, if_neg h0]
        simpa [countersGet, assocLookup, if_neg h1] using ih

theorem countersGet_set_self (c : Counters) (k : Str) (v : ℚ) :
    countersGet (assocSet c k v) k = v := by
  induction c with
  | nil => simp [assocSet, countersGet, assocLookup]
  | cons p rest ih =>
    obtain ⟨k0, v0⟩ := p
    by_cases h : k0 = k
    · subst h
      simp [assocSet, countersGet, assocLookup]
    · simp only [assocSet, if_neg h]
      simpa [countersGet, assocLookup, if_neg h] using ih

theorem countersGet_set_ne (c : Counters) (k k' : Str) (v : ℚ) (h : k' ≠ k) :
    countersGet (assocSet c k v) k' = countersGet c k' := by
  induction c with
  | nil => simp [assocSet, countersGet, assocLookup, if_neg (Ne.symm h)]
  | cons p rest ih =>
    obtain ⟨k0, v0⟩ := p
    by_cases h0 : k0 = k
    · subst h0
      simp [assocSet, countersGet, assocLookup, if_neg (Ne.symm h)]
    · by_cases h1 : k0 = k'
      · simp [assocSet, if_neg h0, countersGet, assocLookup, if_pos h1]
      · simp only [assocSet, if_neg h0]
        simpa [countersGet, assocLookup, if_neg h1] using ih

theorem assocLookup_set_self (c : Counters) (k : Str) (v : ℚ) :
    assocLookup (assocSet c k v) k = some v := by
  induction c with
  | nil => simp [assocSet, assocLookup]
  | cons p rest ih =>
    obtain ⟨k0, v0⟩ := p
    by_cases h : k0 = k
    · subst h
      simp [assocSet, assocLookup]
    · simp only [assocSet, if_neg h]
      simpa [assocLookup, if_neg h] using ih

theorem assocLookup_set_ne (c : Counters) (k k' : Str) (v : ℚ) (h : k' ≠ k) :
    assocLookup (assocSet c k v) k' = assocLookup c k' := by
  induction c with
  | nil => simp [assocSet, assocLookup, if_neg (Ne.symm h)]
  | cons p rest ih =>
    obtain ⟨k0, v0⟩ := p
    by_cases h0 : k0 = k
    · subst h0
      simp [assocSet, assocLookup, if_neg (Ne.symm h)]
    · by_cases h1 : k0 = k'
      · simp [assocSet, if_neg h0, assocLookup, if_pos h1]
      · simp only [assocSet, if_neg h0]
        simpa [assocLookup, if_neg h1] using ih

theorem timersGet_append_self (t : Timers) (k : Str) (v : ℚ) :
    timersGet (timersAppend t k v) k = timersGet t k ++ [v] := by
  induction t with
  | nil => simp [timersAppend, timersGet, assocLookup]
  | cons p rest ih =>
    obtain ⟨k0, l0⟩ := p
    by_cases h : k0 = k
    · subst h
      simp [timersAppend, timersGet, assocLookup]
    · simp only [timersAppend, if_neg h]
      simpa [timersGet, assocLookup, if_neg h] using ih

theorem timersGet_append_ne (t : Timers) (k k' : Str) (v : ℚ) (h : k' ≠ k) :
    timersGet (timersAppend t k v) k' = timersGet t k' := by
  induction t with
  | nil => simp [timersAppend, timersGet, assocLookup, if_neg (Ne.symm h)]
  | cons p rest ih =>
    obtain ⟨k0, l0⟩ := p
    by_cases h0 : k0 = k
    · subst h0
      simp [timersAppend, timersGet, assocLookup, if_neg (Ne.symm h)]
    · by_cases h1 : k0 = k'
      · simp [timersAppend, if_neg h0, timersGet, assocLookup, if_pos h1]
      · simp only [timersAppend, if_neg h0]
        simpa [timersGet, assocLookup, if_neg h1] using ih

theorem keyCountKey_ne_self (k : Str) : keyCountKey k ≠ k := by
  intro h
  have hl := congrArg List.length h
  simp [keyCountKey] at hl
  omega

theorem msgChildKey_ne_byteChildKey (i : Nat) : msgChildKey i ≠ byteChildKey i := by
  intro h
  have hl := congrArg List.length h
  simp [msgChildKey, byteChildKey] at hl
  omega

/-! ## Theorems for the claims -/

/-- Claim C1: for every sample accumulated by the listener, a counter sample
adds `value / sample_rate` to `counters[key]`, a timer sample appends `value`
to `timers[key]`, in both cases `counters['tallier._key_counts.' + key]`
increases by exactly one, and no other entry of the live bundle changes. -/
theorem c1_handle_sample_accumulates (l : Listener) (s : Sample)
    (hrate : 0 < s.sample_rate) :
    (countersGet (l.handleSample s).counters (keyCountKey s.key)
        = countersGet l.counters (keyCountKey s.key) + 1)
    ∧ (s.value_type = ValueType.counter →
        countersGet (l.handleSample s).counters s.key
            = countersGet l.counters s.key + s.value / s.sample_rate
        ∧ (l.handleSample s).timers = l.timers
        ∧ ∀ k, k ≠ s.key → k ≠ keyCountKey s.key →
            countersGet (l.handleSample s).counters k = countersGet l.counters k)
    ∧ (s.value_type = ValueType.timer →
        timersGet (l.handleSample s).timers s.key = timersGet l.timers s.key ++ [s.value]
        ∧ (∀ k, k ≠ s.key → timersGet (l.handleSample s).timers k = timersGet l.timers k)
        ∧ ∀ k, k ≠ keyCountKey s.key →
            countersGet (l.handleSample s).counters k = countersGet l.counters k) := by
  refine ⟨?_, ?_, ?_⟩
  · by_cases hc : s.value_type = ValueType.counter
    · simp only [Listener.handleSample, if_pos hc]
      rw [countersGet_incr_self,
        countersGet_incr_ne _ _ _ _ (keyCountKey_ne_self s.key)]
    · simp only [Listener.handleSample, if_neg hc]
      rw [countersGet_incr_self]
  · intro hc
    refine ⟨?_, ?_, ?_⟩
    · simp only [Listener.handleSample, if_pos hc]
      rw [countersGet_incr_ne _ _ _ _ (fun h2 => keyCountKey_ne_self s.key h2.symm),
        countersGet_incr_self]
    · simp [Listener.handleSample, if_pos hc]
    · intro k hk hkc
      simp only [Listener.handleSample, if_pos hc]
      rw [countersGet_incr_ne _ _ _ _ hkc, countersGet_incr_ne _ _ _ _ hk]
  · intro ht
    have hc : ¬ s.value_type = ValueType.counter := by
      rw [ht]; decide
    refine ⟨?_, ?_, ?_⟩
    · simp only [Listener.handleSample, if_neg hc]
      rw [timersGet_append_self]
    · intro k hk
      simp only [Listener.handleSample, if_neg hc]
      rw [timersGet_append_ne _ _ _ _ hk]
    · intro k hkc
      simp only [Listener.handleSample, if_neg hc]
      rw [countersGet_incr_ne _ _ _ _ hkc]

/-- Witness for C1 at a concrete listener and sample (a counter sample with
rate 1/2 for key `a`, against a bundle already holding `a = 3`). -/
theorem c1_witness :
    countersGet
        ((Listener.mk 0 [("a".data, 3)] [] 0 0 0 0).handleSample
          ⟨"a".data, 2, ValueType.counter, 1/2⟩).counters "a".data = 7 := by
  have h := c1_handle_sample_accumulates (Listener.mk 0 [("a".data, 3)] [] 0 0 0 0)
    ⟨"a".data, 2, ValueType.counter, 1/2⟩ (by norm_num)
  have h2 := (h.2.1 rfl).1
  rw [h2]
  norm_num [countersGet, assocLookup]

/-- Claim C4: `Listener.flush` returns the accumulated bundle with the two
per-interval delta entries assigned into its counters, swaps in a fresh empty
bundle, advances the `last_*` snapshots to the current totals, and resets
neither `message_count` nor `byte_count`; all other counter entries and all
timer lists of the returned bundle are exactly as accumulated. -/
theorem c4_flush_swap (l : Listener) :
    countersGet (l.flush).1.1 (msgChildKey l.listener_id)
        = (l.message_count : ℚ) - (l.last_message_count : ℚ)
    ∧ countersGet (l.flush).1.1 (byteChildKey l.listener_id)
        = (l.byte_count : ℚ) - (l.last_byte_count : ℚ)
    ∧ (∀ k, k ≠ msgChildKey l.listener_id → k ≠ byteChildKey l.listener_id →
        countersGet (l.flush).1.1 k = countersGet l.counters k)
    ∧ (l.flush).1.2 = l.timers
    ∧ (l.flush).2.counters = []
    ∧ (l.flush).2.timers = []
    ∧ (l.flush).2.last_message_count = l.message_count
    ∧ (l.flush).2.last_byte_count = l.byte_count
    ∧ (l.flush).2.message_count = l.message_count
    ∧ (l.flush).2.byte_count = l.byte_count
    ∧ (l.flush).2.listener_id = l.listener_id := by
  refine ⟨?_, ?_, ?_, rfl, rfl, rfl, rfl, rfl, rfl, rfl, rfl⟩
  · simp only [Listener.flush]
    rw [countersGet_set_ne _ _ _ _ (msgChildKey_ne_byteChildKey _),
      countersGet_set_self]
  · simp only [Listener.flush]
    rw [countersGet_set_self]
  · intro k hm hb
    simp only [Listener.flush]
    rw [countersGet_set_ne _ _ _ _ hb, countersGet_set_ne _ _ _ _ hm]

/-- Claim C2 counterexample: first flush with a failing TCP connect, a second
flush pending.  The claim says the master logs and keeps running; in the code
the `socket.error` is uncaught, so the loop stops with the error after a
single send attempt, and the second flush never happens. -/
theorem c2_counterexample :
    schedulerRun [⟨false, true⟩, ⟨true, true⟩] ⟨20, 10, 0⟩
        = (⟨20, 10, 1⟩, some PyExc.socketError)
    ∧ (some PyExc.socketError ≠ (none : Option PyExc)) := by
  exact ⟨rfl, by decide⟩

/-- Claim C2 as amended: when the TCP connect or the send to the graphite sink
fails during a flush, the `socket.error` propagates out of
`Master._send_to_graphite` (which has no handler) and out of the scheduler
loop (which catches only `KeyboardInterrupt`), terminating it: exactly one
send is attempted for that flush (no retry, no buffering, the report is
lost), the flush deadline is not advanced, and no later flush runs. -/
theorem c2_sink_failure_stops_loop (net : SinkBehavior) (nets : List SinkBehavior)
    (st : SchedState) (h : net.connectOk = false ∨ net.sendOk = false) :
    schedulerRun (net :: nets) st
        = ({ st with sends := st.sends + 1 }, some PyExc.socketError) := by
  rcases h with h | h
  · simp [schedulerRun, sendToGraphite, h]
  · rcases hc : net.connectOk with _ | _
    · simp [schedulerRun, sendToGraphite, hc]
    · simp [schedulerRun, sendToGraphite, hc, h]

/-- Witness for C2's amended theorem at a concrete failing sink. -/
theorem c2_witness :
    schedulerRun [⟨true, false⟩] ⟨0, 10, 5⟩ = (⟨0, 10, 6⟩, some PyExc.socketError) := by
  exact c2_sink_failure_stops_loop ⟨true, false⟩ [] ⟨0, 10, 5⟩ (Or.inr rfl)

/-- The fused line loop of `Sample.parse` produces exactly the samples of the
effective lines, line by line. -/
theorem parseLoop_eq_effLines (lines : List Str) (previous : Str) :
    Sample.parseLoop lines previous
      = (effLinesLoop lines previous).flatMap Sample.lineSamples := by
  induction lines generalizing previous with
  | nil => rfl
  | cons metric rest ih =>
    by_cases hc : 2 < metric.length ∧ metric.head? = some '^'
    · simp only [Sample.parseLoop, effLinesLoop, if_pos hc]
      cases hx : pyIntHex ((metric.drop 1).take 2) with
      | none => exact ih previous
      | some n => simp [ih]
    · simp only [Sample.parseLoop, effLinesLoop, if_neg hc]
      simp [ih]

/-- Claim C3 counterexample: for the datagram `abcd:1|c\n^-1:2|c`, the claim
(reading the header as two hex digits) skips the second line, giving a single
sample; the code parses `-1` with Python `int(.., 16)` and slices
`previous[:-1]`, so the second line becomes `abcd:1|:2|c` and two further
samples are produced. -/
theorem c3_counterexample :
    claimParse "abcd:1|c\n^-1:2|c".data
        = [⟨"abcd".data, 1, ValueType.counter, 1⟩]
    ∧ Sample.parse "abcd:1|c\n^-1:2|c".data
        = [⟨"abcd".data, 1, ValueType.counter, 1⟩,
           ⟨"abcd".data, 1, ValueType.counter, 1⟩,
           ⟨"abcd".data, 2, ValueType.counter, 1⟩]
    ∧ Sample.parse "abcd:1|c\n^-1:2|c".data ≠ claimParse "abcd:1|c\n^-1:2|c".data := by
  refine ⟨?_, ?_, ?_⟩
  · with_unfolding_all decide
  · with_unfolding_all decide
  · with_unfolding_all decide

/-- Claim C3 as amended: for every datagram, `Sample.parse` equals the
two-phase description — compute the effective lines (a `^`-line of length > 2
has its next two characters parsed by Python `int(.., 16)`, which also accepts
an optional sign and surrounding whitespace; on failure the line is skipped
with the previous effective line unchanged; on success the effective line is
the Python slice `previous[:n]` — a prefix for `n ≥ 0`, all but the last
`-n` characters for `n < 0` — concatenated with the line from position 3 on,
the previous effective line starting out empty), then parse each effective
line.  The S4 example behaves exactly as the claim states. -/
theorem c3_effective_lines_amended :
    (∀ datagram : Str,
        Sample.parse datagram = (effLines datagram).flatMap Sample.lineSamples)
    ∧ effLines "long.key.name:1|c\n^08other:2|c".data
        = ["long.key.name:1|c".data, "long.keyother:2|c".data]
    ∧ Sample.parse "long.key.name:1|c\n^08other:2|c".data
        = [⟨"long.key.name".data, 1, ValueType.counter, 1⟩,
           ⟨"long.keyother".data, 2, ValueType.counter, 1⟩]
    ∧ effLines "abcd:1|c\n^-1:2|c".data = ["abcd:1|c".data, "abcd:1|:2|c".data] := by
  refine ⟨?_, ?_, ?_, ?_⟩
  · intro datagram
    exact parseLoop_eq_effLines (pySplitlines datagram) []
  · with_unfolding_all decide
  · with_unfolding_all decide
  · with_unfolding_all decide

/-- Claim C9: `Sample.parse` is total — for every datagram it returns the
list of samples of the effective lines, each line contributing exactly the
parts whose parse succeeds (`filterMap`), so a malformed line, part or rate
is silently dropped without affecting the rest of the datagram; on the S5
datagram exactly the keys `a` and `d` produce samples. -/
theorem c9_parse_never_raises :
    (∀ datagram : Str,
        Sample.parse datagram = (effLines datagram).flatMap Sample.lineSamples)
    ∧ (∀ (metric rawKey : Str) (parts : List Str),
        pySplitOn ':' metric = rawKey :: parts →
        Sample.lineSamples metric
          = parts.filterMap (Sample.parsePart (Sample.normalizeKey rawKey)))
    ∧ Sample.parse "a:1|c\nb:notanumber|c\nc:3|c@2.0\nd:4|c".data
        = [⟨"a".data, 1, ValueType.counter, 1⟩,
           ⟨"d".data, 4, ValueType.counter, 1⟩] := by
  refine ⟨?_, ?_, ?_⟩
  · intro datagram
    exact parseLoop_eq_effLines (pySplitlines datagram) []
  · intro metric rawKey parts h
    simp [Sample.lineSamples, h]
  · with_unfolding_all decide

/-- Witness for C9 at a concrete line with one well-formed and one malformed
part: the well-formed part still yields its sample. -/
theorem c9_witness :
    Sample.lineSamples "x:1|c:bad".data
        = ["1|c".data, "bad".data].filterMap
            (Sample.parsePart (Sample.normalizeKey "x".data))
    ∧ Sample.lineSamples "x:1|c:bad".data = [⟨"x".data, 1, ValueType.counter, 1⟩] := by
  constructor
  · exact c9_parse_never_raises.2.1 "x:1|c:bad".data "x".data ["1|c".data, "bad".data]
      (by with_unfolding_all decide)
  · with_unfolding_all decide

theorem insIns_perm {α : Type} (le : α → α → Bool) (x : α) (l : List α) :
    (insIns le x l).Perm (x :: l) := by
  induction l with
  | nil => exact List.Perm.refl _
  | cons y ys ih =>
    by_cases h : le x y
    · simp only [insIns, if_pos h]
      exact List.Perm.refl _
    · simp only [insIns, if_neg h]
      exact (ih.cons y).trans (List.Perm.swap x y ys)

theorem insSort_perm {α : Type} (le : α → α → Bool) (l : List α) :
    (insSort le l).Perm l := by
  induction l with
  | nil => exact List.Perm.refl _
  | cons x xs ih =>
    exact (insIns_perm le x (insSort le xs)).trans (ih.cons x)

/-- Claim C5: for every timer key whose (non-empty) merged list `L` appears in
the aggregated timers, the report contains the six statistics lines computed
on `L` sorted ascending: `lower = L[0]`, `upper = L[len-1]`,
`upper_90 = L[len * 90 / 100]` (floor), `mean = sum / len`, `count = len`,
`rate = len / interval`. -/
theorem c5_timer_report (aggCounters : Counters) (aggTimers : Timers)
    (now lastFlushTime : ℚ) (numStats numWorkers : Nat) (key : Str) (L : List ℚ)
    (hmem : (key, L) ∈ aggTimers) (hne : L ≠ []) :
    (⟨"stats.timers.".data ++ key ++ ".lower".data,
        (insSort (fun a b => decide (a ≤ b)) L).getD 0 0, now⟩
      ∈ (buildGraphiteReport aggCounters aggTimers now lastFlushTime numStats numWorkers).1)
    ∧ (⟨"stats.timers.".data ++ key ++ ".upper".data,
        (insSort (fun a b => decide (a ≤ b)) L).getD (L.length - 1) 0, now⟩
      ∈ (buildGraphiteReport aggCounters aggTimers now lastFlushTime numStats numWorkers).1)
    ∧ (⟨"stats.timers.".data ++ key ++ ".upper_90".data,
        (insSort (fun a b => decide (a ≤ b)) L).getD (L.length * 90 / 100) 0, now⟩
      ∈ (buildGraphiteReport aggCounters aggTimers now lastFlushTime numStats numWorkers).1)
    ∧ (⟨"stats.timers.".data ++ key ++ ".mean".data, L.sum / (L.length : ℚ), now⟩
      ∈ (buildGraphiteReport aggCounters aggTimers now lastFlushTime numStats numWorkers).1)
    ∧ (⟨"stats.timers.".data ++ key ++ ".count".data, (L.length : ℚ), now⟩
      ∈ (buildGraphiteReport aggCounters aggTimers now lastFlushTime numStats numWorkers).1)
    ∧ (⟨"stats.timers.".data ++ key ++ ".rate".data,
        (L.length : ℚ) / (now - lastFlushTime), now⟩
      ∈ (buildGraphiteReport aggCounters aggTimers now lastFlushTime numStats numWorkers).1) := by
  have hperm := insSort_perm (fun a b => decide (a ≤ b)) L
  have hlen : (insSort (fun a b => decide (a ≤ b)) L).length = L.length := hperm.length_eq
  have hsum : (insSort (fun a b => decide (a ≤ b)) L).sum = L.sum := hperm.sum_eq
  have hmemlines : ∀ x ∈ timerLines now (now - lastFlushTime) (key, L),
      x ∈ (buildGraphiteReport aggCounters aggTimers now lastFlushTime numStats numWorkers).1 := by
    intro x hx
    simp only [buildGraphiteReport, List.mem_append]
    exact Or.inl (Or.inr (List.mem_flatMap.mpr ⟨(key, L), hmem, hx⟩))
  have heq : timerLines now (now - lastFlushTime) (key, L)
      = [⟨"stats.timers.".data ++ key ++ ".lower".data,
          (insSort (fun a b => decide (a ≤ b)) L).getD 0 0, now⟩,
         ⟨"stats.timers.".data ++ key ++ ".upper".data,
          (insSort (fun a b => decide (a ≤ b)) L).getD (L.length - 1) 0, now⟩,
         ⟨"stats.timers.".data ++ key ++ ".upper_90".data,
          (insSort (fun a b => decide (a ≤ b)) L).getD (L.length * 90 / 100) 0, now⟩,
         ⟨"stats.timers.".data ++ key ++ ".mean".data, L.sum / (L.length : ℚ), now⟩,
         ⟨"stats.timers.".data ++ key ++ ".count".data, (L.length : ℚ), now⟩,
         ⟨"stats.timers.".data ++ key ++ ".rate".data,
          (L.length : ℚ) / (now - lastFlushTime), now⟩] := by
    simp [timerLines, hlen, hsum]
  rw [heq] at hmemlines
  refine ⟨?_, ?_, ?_, ?_, ?_, ?_⟩
  · exact hmemlines _ (by simp)
  · exact hmemlines _ (by simp)
  · exact hmemlines _ (by simp)
  · exact hmemlines _ (by simp)
  · exact hmemlines _ (by simp)
  · exact hmemlines _ (by simp)

/-- Witness for C5 on the S3 scenario: merged timer list `[1, 2, 10]`,
`now = 1000`, `interval = 10`; the report holds `upper_90 = 10` (index 2),
`mean = 13/3 ≈ 4.333333` and `rate = 3/10`. -/
theorem c5_witness :
    (⟨"stats.timers.t.upper_90".data, 10, 1000⟩
        ∈ (buildGraphiteReport [] [("t".data, [1, 2, 10])] 1000 990 0 1).1)
    ∧ (⟨"stats.timers.t.mean".data, 13 / 3, 1000⟩
        ∈ (buildGraphiteReport [] [("t".data, [1, 2, 10])] 1000 990 0 1).1)
    ∧ (⟨"stats.timers.t.rate".data, 3 / 10, 1000⟩
        ∈ (buildGraphiteReport [] [("t".data, [1, 2, 10])] 1000 990 0 1).1) := by
  have h := c5_timer_report [] [("t".data, [1, 2, 10])] 1000 990 0 1 "t".data [1, 2, 10]
    (by simp) (by simp)
  obtain ⟨h1, h2, h3, h4, h5, h6⟩ := h
  have e3 : (⟨"stats.timers.".data ++ "t".data ++ ".upper_90".data,
      (insSort (fun a b => decide (a ≤ b)) [(1 : ℚ), 2, 10]).getD
        (([(1 : ℚ), 2, 10].length) * 90 / 100) 0, 1000⟩ : ReportLine)
      = ⟨"stats.timers.t.upper_90".data, 10, 1000⟩ := by
    with_unfolding_all decide
  have e4 : (⟨"stats.timers.".data ++ "t".data ++ ".mean".data,
      [(1 : ℚ), 2, 10].sum / (([(1 : ℚ), 2, 10].length) : ℚ), 1000⟩ : ReportLine)
      = ⟨"stats.timers.t.mean".data, 13 / 3, 1000⟩ := by
    with_unfolding_all decide
  have e6 : (⟨"stats.timers.".data ++ "t".data ++ ".rate".data,
      (([(1 : ℚ), 2, 10].length) : ℚ) / ((1000 : ℚ) - 990), 1000⟩ : ReportLine)
      = ⟨"stats.timers.t.rate".data, 3 / 10, 1000⟩ := by
    with_unfolding_all decide
  exact ⟨e3 ▸ h3, e4 ▸ h4, e6 ▸ h6⟩

theorem owrite_none (x : Option ℚ) : owrite x none = x := rfl

theorem owrite_none_left (y : Option ℚ) : owrite none y = y := by
  cases y <;> rfl

theorem owrite_assoc (a b c : Option ℚ) :
    owrite (owrite a b) c = owrite a (owrite b c) := by
  cases c <;> cases b <;> rfl

theorem lastAssigned_foldl (es : Counters) (k : Str) (a0 : Option ℚ) :
    es.foldl (fun a p => if p.1 = k then some p.2 else a) a0
      = owrite a0 (lastAssigned es k) := by
  induction es generalizing a0 with
  | nil => rfl
  | cons e es ih =>
    simp only [List.foldl_cons, lastAssigned]
    rw [ih]
    have h2 : es.foldl (fun a p => if p.1 = k then some p.2 else a)
        (if e.1 = k then some e.2 else none)
        = owrite (if e.1 = k then some e.2 else none) (lastAssigned es k) := ih _
    rw [h2, ← owrite_assoc]
    by_cases he : e.1 = k
    · simp [owrite, he]
    · simp [owrite, he]

theorem lastAssigned_cons (e : Str × ℚ) (es : Counters) (k : Str) :
    lastAssigned (e :: es) k
      = owrite (if e.1 = k then some e.2 else none) (lastAssigned es k) := by
  simp only [lastAssigned, List.foldl_cons]
  exact lastAssigned_foldl es k _

theorem lastBundleValue_foldl (rs : List (Counters × Timers)) (q : Str) (a0 : Option ℚ) :
    rs.foldl
        (fun acc b =>
          match lastAssigned b.1 q with
          | some v => some v
          | none => acc)
        a0
      = owrite a0 (lastBundleValue rs q) := by
  induction rs generalizing a0 with
  | nil => rfl
  | cons r rs ih =>
    simp only [List.foldl_cons, lastBundleValue]
    rw [ih]
    have h2 := ih (match lastAssigned r.1 q with
      | some v => some v
      | none => none)
    rw [h2, ← owrite_assoc]
    cases lastAssigned r.1 q <;> rfl

theorem lastBundleValue_cons (r : Counters × Timers) (rs : List (Counters × Timers))
    (q : Str) :
    lastBundleValue (r :: rs) q
      = owrite (lastAssigned r.1 q) (lastBundleValue rs q) := by
  simp only [lastBundleValue, List.foldl_cons]
  rw [lastBundleValue_foldl]
  cases lastAssigned r.1 q <;> rfl

theorem strStarts_append (p t : Str) : strStarts p (p ++ t) = true := by
  induction p with
  | nil => rfl
  | cons c ps ih => simp [strStarts, ih]

theorem eq_append_of_strStarts (p s : Str) (h : strStarts p s = true) :
    s = p ++ s.drop p.length := by
  induction p generalizing s with
  | nil => simp
  | cons c ps ih =>
    cases s with
    | nil => simp [strStarts] at h
    | cons d ss =>
      simp only [strStarts, Bool.and_eq_true, decide_eq_true_eq] at h
      obtain ⟨h1, h2⟩ := h
      subst h1
      simpa using ih ss h2

theorem skc_mergeEntry_eq (acc : MergeAcc) (e : Str × ℚ) :
    (mergeEntry acc e).stat_key_counts
      = if strStarts kcPre e.1 then
          assocSet acc.stat_key_counts (e.1.drop kcPre.length) e.2
        else acc.stat_key_counts := by
  simp only [mergeEntry]
  split_ifs <;> rfl

theorem agg_mergeEntry_eq (acc : MergeAcc) (e : Str × ℚ) :
    (mergeEntry acc e).agg_counters = assocIncr acc.agg_counters e.1 e.2 := by
  simp only [mergeEntry]
  split_ifs <;> rfl

theorem timerFold_skc (ts : Timers) (acc : MergeAcc) :
    (ts.foldl mergeTimerEntry acc).stat_key_counts = acc.stat_key_counts := by
  induction ts generalizing acc with
  | nil => rfl
  | cons t ts ih =>
    simp only [List.foldl_cons]
    rw [ih]
    rfl

theorem timerFold_agg (ts : Timers) (acc : MergeAcc) :
    (ts.foldl mergeTimerEntry acc).agg_counters = acc.agg_counters := by
  induction ts generalizing acc with
  | nil => rfl
  | cons t ts ih =>
    simp only [List.foldl_cons]
    rw [ih]
    rfl

theorem skc_mergeEntry_lookup (acc : MergeAcc) (e : Str × ℚ) (k : Str) :
    assocLookup (mergeEntry acc e).stat_key_counts k
      = owrite (assocLookup acc.stat_key_counts k)
          (if e.1 = kcPre ++ k then some e.2 else none) := by
  rw [skc_mergeEntry_eq]
  by_cases he : e.1 = kcPre ++ k
  · have hs : strStarts kcPre e.1 = true := by
      rw [he]; exact strStarts_append _ _
    have hdrop : e.1.drop kcPre.length = k := by
      rw [he]; simp
    rw [if_pos hs, hdrop, assocLookup_set_self]
    simp [owrite, he]
  · by_cases hs : strStarts kcPre e.1 = true
    · have hdrop : e.1.drop kcPre.length ≠ k := by
        intro hd
        exact he ((eq_append_of_strStarts kcPre e.1 hs).trans (by rw [hd]))
      rw [if_pos hs, assocLookup_set_ne _ _ _ _ (Ne.symm hdrop)]
      simp [owrite, he]
    · rw [if_neg hs]
      simp [owrite, he]

theorem skc_entriesFold (entries : Counters) (acc : MergeAcc) (k : Str) :
    assocLookup (entries.foldl mergeEntry acc).stat_key_counts k
      = owrite (assocLookup acc.stat_key_counts k)
          (lastAssigned entries (kcPre ++ k)) := by
  induction entries generalizing acc with
  | nil => rfl
  | cons e es ih =>
    simp only [List.foldl_cons]
    rw [ih, skc_mergeEntry_lookup, lastAssigned_cons, ← owrite_assoc]

theorem skc_bundlesFold (results : List (Counters × Timers)) (acc : MergeAcc) (k : Str) :
    assocLookup (results.foldl mergeBundle acc).stat_key_counts k
      = owrite (assocLookup acc.stat_key_counts k)
          (lastBundleValue results (kcPre ++ k)) := by
  induction results generalizing acc with
  | nil => rfl
  | cons r rs ih =>
    simp only [List.foldl_cons]
    rw [ih, lastBundleValue_cons, ← owrite_assoc]
    congr 1
    show assocLookup (mergeBundle acc r).stat_key_counts k = _
    simp only [mergeBundle]
    rw [timerFold_skc, skc_entriesFold]

theorem keySum_cons (e : Str × ℚ) (es : Counters) (q : Str) :
    keySum (e :: es) q = (if e.1 = q then e.2 else 0) + keySum es q := by
  by_cases he : e.1 = q
  · simp [keySum, List.filter_cons, he]
  · simp [keySum, List.filter_cons, he]

theorem agg_entriesFold (entries : Counters) (acc : MergeAcc) (q : Str) :
    countersGet (entries.foldl mergeEntry acc).agg_counters q
      = countersGet acc.agg_counters q + keySum entries q := by
  induction entries generalizing acc with
  | nil => simp [keySum]
  | cons e es ih =>
    simp only [List.foldl_cons]
    rw [ih, keySum_cons, ← add_assoc]
    congr 1
    rw [agg_mergeEntry_eq]
    by_cases he : e.1 = q
    · subst he
      rw [countersGet_incr_self]
      simp
    · rw [countersGet_incr_ne _ _ _ _ (Ne.symm he)]
      simp [he]

theorem bundlesKeySum_cons (r : Counters × Timers) (rs : List (Counters × Timers))
    (q : Str) :
    bundlesKeySum (r :: rs) q = keySum r.1 q + bundlesKeySum rs q := by
  simp [bundlesKeySum]

theorem agg_bundlesFold (results : List (Counters × Timers)) (acc : MergeAcc) (q : Str) :
    countersGet (results.foldl mergeBundle acc).agg_counters q
      = countersGet acc.agg_counters q + bundlesKeySum results q := by
  induction results generalizing acc with
  | nil => simp [bundlesKeySum]
  | cons r rs ih =>
    simp only [List.foldl_cons]
    rw [ih, bundlesKeySum_cons, ← add_assoc]
    congr 1
    show countersGet (mergeBundle acc r).agg_counters q = _
    simp only [mergeBundle]
    rw [timerFold_agg, agg_entriesFold]

/-- Claim C6 counterexample: two flushed bundles, each holding
`tallier._key_counts.x = 1`.  The claim says the FrequencyCounter's batch
carries the total `2`; the code assigns (`stat_key_counts[...] = value`, not
`+=`), so the batch carries `1`, the value from the last bundle. -/
theorem c6_counterexample :
    assocLookup (mergeFlushResults
        [([("tallier._key_counts.x".data, 1)], []),
         ([("tallier._key_counts.x".data, 1)], [])]).stat_key_counts "x".data
      = some 1
    ∧ bundlesKeySum
        [([("tallier._key_counts.x".data, 1)], []),
         ([("tallier._key_counts.x".data, 1)], [])] "tallier._key_counts.x".data
      = 2
    ∧ (some (1 : ℚ) ≠ some (2 : ℚ)) := by
  refine ⟨?_, ?_, ?_⟩
  · with_unfolding_all decide
  · with_unfolding_all decide
  · with_unfolding_all decide

/-- Claim C6 as amended: while merging the flushed bundles, every counter key
beginning with `tallier._key_counts.` contributes, under the key stripped of
that prefix, to the single `stat_key_counts` batch handed to the
FrequencyCounter — but by assignment, so the value the FrequencyCounter
receives for a stripped key is the value stored by the *last* flushed bundle
containing that key (in worker order), not the total over bundles.  The
un-stripped key itself is still summed into `agg_counters` like any other
counter. -/
theorem c6_key_counts_merge_amended :
    (∀ (results : List (Counters × Timers)) (k : Str),
        assocLookup (mergeFlushResults results).stat_key_counts k
          = lastBundleValue results (kcPre ++ k))
    ∧ (∀ (results : List (Counters × Timers)) (k : Str),
        countersGet (mergeFlushResults results).agg_counters (kcPre ++ k)
          = bundlesKeySum results (kcPre ++ k)) := by
  constructor
  · intro results k
    have h := skc_bundlesFold results ⟨[], [], [], 0, 0⟩ k
    simpa [mergeFlushResults, assocLookup, owrite_none_left] using h
  · intro results k
    have h := agg_bundlesFold results ⟨[], [], [], 0, 0⟩ (kcPre ++ k)
    simpa [mergeFlushResults, countersGet, assocLookup] using h

/-! ## Normalization: split/join versus collapse/trim -/

-- dropWhile append helpers
theorem dropWhile_append_of_ne_nil {p : Char → Bool} (l1 l2 : Str)
    (h : l1.dropWhile p ≠ []) :
    (l1 ++ l2).dropWhile p = l1.dropWhile p ++ l2 := by
  induction l1 with
  | nil => simp [List.dropWhile] at h
  | cons c cs ih =>
    by_cases hc : p c
    · simp only [List.cons_append, List.dropWhile_cons, hc, if_true] at *
      exact ih h
    · simp [List.dropWhile_cons, hc]

theorem dropWhile_append_of_all {p : Char → Bool} (l1 l2 : Str)
    (h : ∀ c ∈ l1, p c = true) :
    (l1 ++ l2).dropWhile p = l2.dropWhile p := by
  induction l1 with
  | nil => simp
  | cons c cs ih =>
    have hc : p c = true := h c (by simp)
    simp only [List.cons_append, List.dropWhile_cons, hc, if_true]
    exact ih (fun x hx => h x (by simp [hx]))

theorem dropWhile_head_not {p : Char → Bool} (l : Str) (c : Char) (r : Str)
    (h : l.dropWhile p = c :: r) : p c = false := by
  induction l with
  | nil => simp [List.dropWhile] at h
  | cons x xs ih =>
    by_cases hx : p x
    · rw [List.dropWhile_cons, if_pos hx] at h
      exact ih h
    · rw [List.dropWhile_cons, if_neg hx] at h
      cases h
      exact Bool.of_not_eq_true hx

-- pySplitWs unfolding lemmas
theorem pySplitWsAux_token (cs : Str) (cur : Str) (h : cur ≠ []) :
    pySplitWsAux cs cur
      = (cur.reverse ++ cs.takeWhile nonWs) :: pySplitWs (cs.dropWhile nonWs) := by
  induction cs generalizing cur with
  | nil =>
    simp [pySplitWsAux, pySplitWs, List.isEmpty_iff, h, List.takeWhile, List.dropWhile]
  | cons c cs ih =>
    by_cases hc : isPyWs c
    · have hn : nonWs c = false := by simp [nonWs, hc]
      simp only [pySplitWsAux, List.isEmpty_iff, if_neg h, if_pos hc]
      simp only [List.takeWhile_cons, List.dropWhile_cons, hn, Bool.false_eq_true, if_false,
        pySplitWs, List.append_nil]
      congr 1
      simp [pySplitWsAux, hc]
    · have hn : nonWs c = true := by simp [nonWs, hc]
      simp only [pySplitWsAux, if_neg hc]
      rw [ih (c :: cur) (by simp)]
      simp [List.takeWhile_cons, List.dropWhile_cons, hn]
theorem pySplitWs_cons_ws (c : Char) (cs : Str) (hc : isPyWs c = true) :
    pySplitWs (c :: cs) = pySplitWs cs := by
  simp [pySplitWs, pySplitWsAux, hc]

theorem pySplitWs_cons_nonws (c : Char) (cs : Str) (hc : isPyWs c = false) :
    pySplitWs (c :: cs)
      = (c :: cs.takeWhile nonWs) :: pySplitWs (cs.dropWhile nonWs) := by
  simp only [pySplitWs, pySplitWsAux, hc, Bool.false_eq_true, if_false, List.isEmpty_nil,
    if_true]
  rw [pySplitWsAux_token cs [c] (by simp)]
  rfl

theorem pySplitWs_ws_lead (w l : Str) (h : ∀ c ∈ w, isPyWs c = true) :
    pySplitWs (w ++ l) = pySplitWs l := by
  induction w with
  | nil => simp
  | cons c cs ih =>
    rw [List.cons_append, pySplitWs_cons_ws c _ (h c (by simp))]
    exact ih (fun x hx => h x (by simp [hx]))

theorem pySplitWs_eq_nil_iff (r : Str) :
    pySplitWs r = [] ↔ ∀ c ∈ r, isPyWs c = true := by
  induction r with
  | nil => simp [pySplitWs, pySplitWsAux]
  | cons c cs ih =>
    by_cases hc : isPyWs c
    · rw [pySplitWs_cons_ws c cs hc]
      simp only [ih]
      constructor
      · intro h x hx
        rcases List.mem_cons.mp hx with h1 | h1
        · subst h1; exact hc
        · exact h x h1
      · intro h x hx
        exact h x (by simp [hx])
    · rw [pySplitWs_cons_nonws c cs (Bool.of_not_eq_true hc)]
      constructor
      · intro h; cases h
      · intro h
        exact absurd (h c (by simp)) hc

-- collapse lemmas
theorem collapseWsAux_nonws (b : Bool) (c : Char) (l : Str) (hc : isPyWs c = false) :
    collapseWsAux b (c :: l) = c :: collapseWsAux false l := by
  simp [collapseWsAux, hc]

theorem collapseWs_append_nonws (t l : Str) (ht : ∀ c ∈ t, isPyWs c = false) :
    collapseWsAux false (t ++ l) = t ++ collapseWsAux false l := by
  induction t with
  | nil => simp
  | cons c cs ih =>
    rw [List.cons_append, collapseWsAux_nonws false c _ (ht c (by simp))]
    rw [ih (fun x hx => ht x (by simp [hx]))]
    rfl

theorem collapseWsAux_true_ws_lead (w l : Str) (h : ∀ c ∈ w, isPyWs c = true) :
    collapseWsAux true (w ++ l) = collapseWsAux true l := by
  induction w with
  | nil => simp
  | cons c cs ih =>
    rw [List.cons_append]
    simp only [collapseWsAux, h c (by simp), if_true]
    exact ih (fun x hx => h x (by simp [hx]))

theorem collapseWs_all_nonws (t : Str) (ht : ∀ c ∈ t, isPyWs c = false) :
    collapseWs t = t := by
  have h := collapseWs_append_nonws t [] ht
  simpa [collapseWs, collapseWsAux] using h

-- rtrim lemmas
theorem rtrimWs_nil : rtrimWs [] = [] := rfl

theorem rtrimWs_cons_nonws (c : Char) (l : Str) (hc : isPyWs c = false) :
    rtrimWs (c :: l) = c :: rtrimWs l := by
  unfold rtrimWs
  rw [List.reverse_cons]
  by_cases h : l.reverse.dropWhile isPyWs = []
  · rw [dropWhile_append_of_all _ _ ?hall]
    · simp [List.dropWhile, hc, h]
    · intro x hx
      by_contra hxx
      have : l.reverse.dropWhile isPyWs ≠ [] := by
        intro hnil
        have := List.takeWhile_append_dropWhile isPyWs l.reverse
        rw [hnil, List.append_nil] at this
        have hxall := @List.mem_takeWhile_imp Char isPyWs l.reverse x
        rw [this] at hxall
        exact hxx (hxall hx)
      exact this h
  · rw [dropWhile_append_of_ne_nil _ _ h]
    simp

theorem rtrimWs_append_allws (x w : Str) (h : ∀ c ∈ w, isPyWs c = true) :
    rtrimWs (x ++ w) = rtrimWs x := by
  unfold rtrimWs
  rw [List.reverse_append, dropWhile_append_of_all _ _ (fun c hc => h c (by
    simpa using hc))]

theorem rtrimWs_all_nonws (t : Str) (ht : ∀ c ∈ t, isPyWs c = false) :
    rtrimWs t = t := by
  induction t with
  | nil => rfl
  | cons c cs ih =>
    rw [rtrimWs_cons_nonws c cs (ht c (by simp))]
    rw [ih (fun x hx => ht x (by simp [hx]))]

theorem rtrimWs_cons_nonws_ne_nil (c : Char) (l : Str) (hc : isPyWs c = false) :
    rtrimWs (c :: l) ≠ [] := by
  rw [rtrimWs_cons_nonws c l hc]
  simp

theorem rtrimWs_append_of_ne_nil (x d : Str) (h : rtrimWs d ≠ []) :
    rtrimWs (x ++ d) = x ++ rtrimWs d := by
  unfold rtrimWs at *
  rw [List.reverse_append, dropWhile_append_of_ne_nil _ _ ?hne]
  · rw [List.reverse_append, List.reverse_reverse]
  · intro hnil
    rw [hnil] at h
    simp at h

theorem joinUnd_cons_ne_nil (x : Str) (l : List Str) (h : l ≠ []) :
    joinUnd (x :: l) = x ++ '_' :: joinUnd l := by
  cases l with
  | nil => exact absurd rfl h
  | cons y ys => rfl

-- main equivalence
theorem joinUnd_pySplitWs_eq (s : Str) :
    joinUnd (pySplitWs s) = collapseWs (rtrimWs (ltrimWs s)) := by
  have H : ∀ (n : Nat) (s : Str), s.length ≤ n →
      joinUnd (pySplitWs s) = collapseWs (rtrimWs (ltrimWs s)) := by
    intro n
    induction n with
    | zero =>
      intro s hs
      have : s = [] := List.length_eq_zero.mp (Nat.le_zero.mp hs)
      subst this
      rfl
    | succ m ih =>
      intro s hs
      cases s with
      | nil => rfl
      | cons c cs =>
        have hcs : cs.length ≤ m := by
          simpa using Nat.succ_le_succ_iff.mp (by simpa using hs)
        by_cases hc : isPyWs c
        · rw [pySplitWs_cons_ws c cs hc]
          have hl : ltrimWs (c :: cs) = ltrimWs cs := by
            simp [ltrimWs, List.dropWhile_cons, hc]
          rw [hl]
          exact ih cs hcs
        · have hcf : isPyWs c = false := Bool.of_not_eq_true hc
          have hl : ltrimWs (c :: cs) = c :: cs := by
            simp [ltrimWs, List.dropWhile_cons, hcf]
          rw [hl, pySplitWs_cons_nonws c cs hcf]
          set t := cs.takeWhile nonWs with ht
          set r := cs.dropWhile nonWs with hr
          have hcst : cs = t ++ r := (List.takeWhile_append_dropWhile nonWs cs).symm
          have htnonws : ∀ x ∈ t, isPyWs x = false := by
            intro x hx
            have := List.mem_takeWhile_imp hx
            simpa [nonWs] using this
          by_cases hsplit : pySplitWs r = []
          · -- r is all whitespace
            have hrws : ∀ x ∈ r, isPyWs x = true := (pySplitWs_eq_nil_iff r).mp hsplit
            rw [hsplit]
            have hrt : rtrimWs (c :: cs) = c :: t := by
              rw [hcst, ← List.cons_append, rtrimWs_append_allws _ _ hrws]
              exact rtrimWs_all_nonws (c :: t) (by
                intro x hx
                rcases List.mem_cons.mp hx with h1 | h1
                · subst h1; exact hcf
                · exact htnonws x h1)
            rw [hrt]
            rw [collapseWs_all_nonws (c :: t) (by
              intro x hx
              rcases List.mem_cons.mp hx with h1 | h1
              · subst h1; exact hcf
              · exact htnonws x h1)]
            rfl
          · -- r contains a non-whitespace character
            set w := r.takeWhile isPyWs with hw
            set d := r.dropWhile isPyWs with hd
            have hrd : r = w ++ d := (List.takeWhile_append_dropWhile isPyWs r).symm
            have hwws : ∀ x ∈ w, isPyWs x = true := by
              intro x hx
              exact List.mem_takeWhile_imp hx
            have hsplitd : pySplitWs d = pySplitWs r := by
              conv_rhs => rw [hrd]
              rw [pySplitWs_ws_lead w d hwws]
            -- d is nonempty and starts with a non-ws char
            have hdne : d ≠ [] := by
              intro hnil
              rw [hnil] at hsplitd
              exact hsplit (hsplitd.symm.trans rfl)
            obtain ⟨e, d2, hed⟩ := List.exists_cons_of_ne_nil hdne
            have henonws : isPyWs e = false := by
              apply dropWhile_head_not r e d2
              rw [← hd, hed]
            -- w is nonempty: r's head is whitespace
            have hrne : r ≠ [] := by
              intro h0
              rw [h0] at hsplit
              exact hsplit rfl
            obtain ⟨rc, rr, hrcase⟩ := List.exists_cons_of_ne_nil hrne
            have hrcws : isPyWs rc = true := by
              have hnw : nonWs rc = false := by
                apply dropWhile_head_not cs rc rr
                rw [← hr, hrcase]
              simpa [nonWs] using hnw
            have hwcshape : w = rc :: rr.takeWhile isPyWs := by
              rw [hw, hrcase, List.takeWhile_cons, if_pos hrcws]
            -- IH on d
            have hdlen : d.length ≤ m := by
              have h1 : d.length ≤ r.length := by
                rw [hrd]; simp
              have h2 : r.length ≤ cs.length := by
                rw [hcst]; simp
              omega
            have hihd := ih d hdlen
            have hld : ltrimWs d = d := by
              rw [hed]
              simp [ltrimWs, List.dropWhile_cons, henonws]
            rw [hld] at hihd
            -- rtrim computation
            have hrtd_ne : rtrimWs d ≠ [] := by
              rw [hed]
              exact rtrimWs_cons_nonws_ne_nil e d2 henonws
            have hrt : rtrimWs (c :: cs) = c :: (t ++ (w ++ rtrimWs d)) := by
              rw [rtrimWs_cons_nonws c cs hcf, hcst, hrd, ← List.append_assoc,
                rtrimWs_append_of_ne_nil _ _ hrtd_ne]
              simp
            rw [hrt]
            -- collapse computation
            have hrtd_shape : rtrimWs d = e :: rtrimWs d2 := by
              rw [hed, rtrimWs_cons_nonws e d2 henonws]
            have hw2ws : ∀ x ∈ rr.takeWhile isPyWs, isPyWs x = true := by
              intro x hx
              exact List.mem_takeWhile_imp hx
            have hcol : collapseWsAux false (c :: (t ++ (w ++ rtrimWs d)))
                = c :: (t ++ ('_' :: collapseWsAux false (rtrimWs d))) := by
              rw [collapseWsAux_nonws false c _ hcf,
                collapseWs_append_nonws t _ htnonws]
              congr 2
              rw [hwcshape, List.cons_append]
              simp only [collapseWsAux, hrcws, if_true]
              rw [collapseWsAux_true_ws_lead (rr.takeWhile isPyWs) _ hw2ws]
              rw [hrtd_shape, collapseWsAux_nonws true e _ henonws,
                ← collapseWsAux_nonws false e _ henonws]
              simp
            rw [← hsplitd, joinUnd_cons_ne_nil _ _ (by
              rw [hsplitd]
              exact hsplit), hihd]
            show _ = collapseWsAux false (c :: (t ++ (w ++ rtrimWs d)))
            rw [hcol]
            simp [collapseWs]
  exact H s.length s le_rfl


/-- Claim C7 counterexample: for the raw key `' a'` (a leading whitespace
run), the claim's normalization — every whitespace run becomes `'_'` — gives
`'_a'`, but the code's `key.split()` removes leading whitespace entirely, so
the key normalizes to `'a'`. -/
theorem c7_counterexample :
    claimNormalizeKey " a".data = "_a".data
    ∧ Sample.normalizeKey " a".data = "a".data
    ∧ Sample.normalizeKey " a".data ≠ claimNormalizeKey " a".data := by
  refine ⟨?_, ?_, ?_⟩
  · with_unfolding_all decide
  · with_unfolding_all decide
  · with_unfolding_all decide

/-- Claim C7 as amended: normalization removes leading and trailing
whitespace, collapses every interior run of whitespace to a single
underscore, replaces each backslash with `'-'`, then removes every character
outside `[A-Za-z0-9._-]`; the result may be empty and an empty key still
yields samples; the line `a b\c:1|c` produces a sample with key `a_b-c`. -/
theorem c7_normalize_key_amended :
    (∀ key : Str, Sample.normalizeKey key = amendedNormalizeKey key)
    ∧ Sample.parse "a b\\c:1|c".data = [⟨"a_b-c".data, 1, ValueType.counter, 1⟩]
    ∧ Sample.parse ":1|c".data = [⟨"".data, 1, ValueType.counter, 1⟩] := by
  refine ⟨?_, ?_, ?_⟩
  · intro key
    unfold Sample.normalizeKey amendedNormalizeKey
    rw [joinUnd_pySplitWs_eq]
  · with_unfolding_all decide
  · with_unfolding_all decide


/-! ## FrequencyCounter lemmas -/

theorem mapFst_assocIncr (l : Counters) (k : Str) (v : ℚ) :
    (assocIncr l k v).map Prod.fst
      = if k ∈ l.map Prod.fst then l.map Prod.fst else l.map Prod.fst ++ [k] := by
  induction l with
  | nil => simp [assocIncr]
  | cons p rest ih =>
    obtain ⟨k0, v0⟩ := p
    by_cases h : k0 = k
    · subst h
      simp [assocIncr]
    · have hne : ¬ k = k0 := fun hh => h hh.symm
      simp only [assocIncr, if_neg h, List.map_cons, ih, List.mem_cons, hne, false_or]
      by_cases hm : k ∈ rest.map Prod.fst
      · simp [hm]
      · simp [hm]

theorem nodupKeys_assocIncr (l : Counters) (k : Str) (v : ℚ) (h : nodupKeys l) :
    nodupKeys (assocIncr l k v) := by
  unfold nodupKeys at *
  rw [mapFst_assocIncr]
  by_cases hm : k ∈ l.map Prod.fst
  · simpa [hm] using h
  · simp only [hm, if_false]
    simp [List.nodup_append, h, hm]

theorem sumVals_assocIncr (l : Counters) (k : Str) (v : ℚ) :
    sumVals (assocIncr l k v) = sumVals l + v := by
  induction l with
  | nil => simp [assocIncr, sumVals]
  | cons p rest ih =>
    obtain ⟨k0, v0⟩ := p
    by_cases h : k0 = k
    · subst h
      simp [assocIncr, sumVals]
      ring
    · simp only [assocIncr, if_neg h]
      simp only [sumVals, List.map_cons, List.sum_cons] at *
      rw [ih]
      ring

theorem nonneg_assocIncr (l : Counters) (k : Str) (v : ℚ)
    (hl : ∀ q ∈ l.map Prod.snd, 0 ≤ q) (hv : 0 ≤ v) :
    ∀ q ∈ (assocIncr l k v).map Prod.snd, 0 ≤ q := by
  induction l with
  | nil =>
    intro q hq
    simp only [assocIncr, List.map_cons, List.map_nil, List.mem_singleton] at hq
    subst hq
    exact hv
  | cons p rest ih =>
    obtain ⟨k0, v0⟩ := p
    have h0 : (0 : ℚ) ≤ v0 := hl v0 (by simp)
    have hrest : ∀ x ∈ rest.map Prod.snd, 0 ≤ x := by
      intro x hx
      apply hl x
      simp only [List.map_cons, List.mem_cons]
      exact Or.inr hx
    by_cases h : k0 = k
    · subst h
      intro q hq
      simp only [assocIncr, eq_self_iff_true, if_true, List.map_cons, List.mem_cons] at hq
      rcases hq with hq | hq
      · subst hq
        linarith
      · exact hrest q hq
    · intro q hq
      simp only [assocIncr, if_neg h, List.map_cons, List.mem_cons] at hq
      rcases hq with hq | hq
      · subst hq
        exact h0
      · exact ih hrest q hq

-- addBatchEntry fold facts
theorem addFold_size (b : List (Str × ℚ)) (fc : FrequencyCounter) :
    (b.foldl FrequencyCounter.addBatchEntry fc).size = fc.size := by
  induction b generalizing fc with
  | nil => rfl
  | cons e es ih =>
    simp only [List.foldl_cons]
    rw [ih]
    rfl

theorem addFold_oversample (b : List (Str × ℚ)) (fc : FrequencyCounter) :
    (b.foldl FrequencyCounter.addBatchEntry fc).oversample_size = fc.oversample_size := by
  induction b generalizing fc with
  | nil => rfl
  | cons e es ih =>
    simp only [List.foldl_cons]
    rw [ih]
    rfl

theorem addFold_total (b : List (Str × ℚ)) (fc : FrequencyCounter) :
    (b.foldl FrequencyCounter.addBatchEntry fc).total_observed
      = fc.total_observed + (b.map Prod.snd).sum := by
  induction b generalizing fc with
  | nil => simp
  | cons e es ih =>
    simp only [List.foldl_cons, List.map_cons, List.sum_cons]
    rw [ih]
    simp only [FrequencyCounter.addBatchEntry]
    ring

theorem addFold_sumVals (b : List (Str × ℚ)) (fc : FrequencyCounter) :
    sumVals (b.foldl FrequencyCounter.addBatchEntry fc).frequencies
      = sumVals fc.frequencies + (b.map Prod.snd).sum := by
  induction b generalizing fc with
  | nil => simp
  | cons e es ih =>
    simp only [List.foldl_cons, List.map_cons, List.sum_cons]
    rw [ih]
    simp only [FrequencyCounter.addBatchEntry]
    rw [sumVals_assocIncr]
    ring

theorem addFold_nodup (b : List (Str × ℚ)) (fc : FrequencyCounter)
    (h : nodupKeys fc.frequencies) :
    nodupKeys (b.foldl FrequencyCounter.addBatchEntry fc).frequencies := by
  induction b generalizing fc with
  | nil => exact h
  | cons e es ih =>
    simp only [List.foldl_cons]
    exact ih _ (nodupKeys_assocIncr _ _ _ h)

theorem addFold_nonneg (b : List (Str × ℚ)) (fc : FrequencyCounter)
    (hfc : ∀ q ∈ fc.frequencies.map Prod.snd, 0 ≤ q)
    (hb : ∀ v ∈ b.map Prod.snd, 0 ≤ v) :
    ∀ q ∈ (b.foldl FrequencyCounter.addBatchEntry fc).frequencies.map Prod.snd, 0 ≤ q := by
  induction b generalizing fc with
  | nil => exact hfc
  | cons e es ih =>
    simp only [List.foldl_cons]
    exact ih _ (nonneg_assocIncr _ _ _ hfc (hb e.2 (by simp)))
      (fun v hv => hb v (by simp [hv]))

-- cleanup facts
theorem cleanup_total (fc : FrequencyCounter) (num : Nat) :
    (fc.cleanup num).total_observed = fc.total_observed := rfl

theorem cleanup_size (fc : FrequencyCounter) (num : Nat) :
    (fc.cleanup num).size = fc.size := rfl

theorem cleanup_oversample (fc : FrequencyCounter) (num : Nat) :
    (fc.cleanup num).oversample_size = fc.oversample_size := rfl

theorem filter_sublist_vals {p : Str × ℚ → Bool} (l : Counters)
    (h : ∀ q ∈ l.map Prod.snd, 0 ≤ q) :
    sumVals (l.filter p) ≤ sumVals l := by
  induction l with
  | nil => simp [sumVals]
  | cons e es ih =>
    have he : (0 : ℚ) ≤ e.2 := h e.2 (by simp)
    have ihs := ih (fun q hq => h q (by simp [hq]))
    by_cases hp : p e = true
    · simp only [List.filter_cons, hp, if_true, sumVals, List.map_cons, List.sum_cons]
      simp only [sumVals] at ihs
      linarith
    · have hpf : p e = false := Bool.of_not_eq_true hp
      simp only [List.filter_cons, hpf, Bool.false_eq_true, if_false, sumVals, List.map_cons,
        List.sum_cons]
      simp only [sumVals] at ihs
      linarith

theorem cleanup_sumVals_le (fc : FrequencyCounter) (num : Nat)
    (h : ∀ q ∈ fc.frequencies.map Prod.snd, 0 ≤ q) :
    sumVals (fc.cleanup num).frequencies ≤ sumVals fc.frequencies := by
  exact filter_sublist_vals _ h

theorem cleanup_nonneg (fc : FrequencyCounter) (num : Nat)
    (h : ∀ q ∈ fc.frequencies.map Prod.snd, 0 ≤ q) :
    ∀ q ∈ (fc.cleanup num).frequencies.map Prod.snd, 0 ≤ q := by
  intro q hq
  simp only [FrequencyCounter.cleanup, List.mem_map] at hq
  obtain ⟨e, he, hq2⟩ := hq
  subst hq2
  exact h e.2 (List.mem_map.mpr ⟨e, List.mem_of_mem_filter he, rfl⟩)

theorem cleanup_nodup (fc : FrequencyCounter) (num : Nat)
    (h : nodupKeys fc.frequencies) :
    nodupKeys (fc.cleanup num).frequencies := by
  unfold nodupKeys at *
  have hsub : ((fc.cleanup num).frequencies.map Prod.fst).Sublist
      (fc.frequencies.map Prod.fst) := by
    exact List.Sublist.map Prod.fst (List.filter_sublist _)
  exact h.sublist hsub

theorem filter_not_length {p : Str × ℚ → Bool} (l : Counters) :
    (l.filter (fun a => !(p a))).length = l.length - (l.filter p).length := by
  induction l with
  | nil => simp
  | cons e es ih =>
    have hle := List.length_filter_le p es
    by_cases hp : p e = true
    · simp only [List.filter_cons, hp, if_true, Bool.not_true, Bool.false_eq_true, if_false,
        List.length_cons]
      omega
    · have hpf : p e = false := Bool.of_not_eq_true hp
      simp only [List.filter_cons, hpf, Bool.false_eq_true, if_false, Bool.not_false, if_true,
        List.length_cons]
      omega

theorem filter_contains_length (l : Counters) (S : List Str)
    (hl : nodupKeys l) (hS : S.Nodup) (hsub : ∀ k ∈ S, k ∈ l.map Prod.fst) :
    (l.filter (fun p => S.contains p.1)).length = S.length := by
  have hmapeq : (l.filter (fun p => S.contains p.1)).map Prod.fst
      = (l.map Prod.fst).filter (fun k => S.contains k) := by
    rw [List.filter_map]
    rfl
  have hnd1 : ((l.map Prod.fst).filter (fun k => S.contains k)).Nodup :=
    hl.sublist (List.filter_sublist _)
  have hperm : ((l.map Prod.fst).filter (fun k => S.contains k)).Perm S := by
    rw [List.perm_ext_iff_of_nodup hnd1 hS]
    intro a
    simp only [List.mem_filter]
    constructor
    · intro ⟨_, h2⟩
      exact List.elem_iff.mp h2
    · intro hins
      exact ⟨hsub a hins, List.elem_iff.mpr hins⟩
  have hlen : ((l.map Prod.fst).filter (fun k => S.contains k)).length = S.length :=
    hperm.length_eq
  calc (l.filter (fun p => S.contains p.1)).length
      = ((l.filter (fun p => S.contains p.1)).map Prod.fst).length := by
        rw [List.length_map]
    _ = S.length := by rw [hmapeq, hlen]

theorem cleanup_length (fc : FrequencyCounter) (num : Nat)
    (h : nodupKeys fc.frequencies) (hle : num ≤ fc.frequencies.length) :
    (fc.cleanup num).frequencies.length = fc.frequencies.length - num := by
  unfold FrequencyCounter.cleanup
  have hperm := insSort_perm (fun a b => decide (a.2 ≤ b.2)) fc.frequencies
  have hpermfst := hperm.map Prod.fst
  have hndsorted : ((insSort (fun a b => decide (a.2 ≤ b.2)) fc.frequencies).map
      Prod.fst).Nodup := (List.Perm.nodup_iff hpermfst).mpr h
  set sorted := insSort (fun a b => decide (a.2 ≤ b.2)) fc.frequencies with hsorted
  set S := (sorted.take num).map Prod.fst with hS
  have hSlen : S.length = num := by
    rw [hS, List.length_map, List.length_take]
    have : sorted.length = fc.frequencies.length := hperm.length_eq
    omega
  have hSnodup : S.Nodup := by
    rw [hS, List.map_take]
    exact hndsorted.sublist (List.take_sublist _ _)
  have hSsub : ∀ k ∈ S, k ∈ fc.frequencies.map Prod.fst := by
    intro k hk
    rw [hS, List.map_take] at hk
    have h1 : k ∈ sorted.map Prod.fst := (List.take_sublist _ _).subset hk
    exact hpermfst.mem_iff.mp h1
  rw [filter_not_length, filter_contains_length fc.frequencies S h hSnodup hSsub, hSlen]

-- sampleBatch facts
theorem sampleBatch_size (fc : FrequencyCounter) (batch : List (Str × ℚ)) :
    (fc.sampleBatch batch).size = fc.size := by
  unfold FrequencyCounter.sampleBatch
  dsimp only
  split_ifs
  · rw [cleanup_size, addFold_size]
  · rw [addFold_size]

theorem sampleBatch_oversample (fc : FrequencyCounter) (batch : List (Str × ℚ)) :
    (fc.sampleBatch batch).oversample_size = fc.oversample_size := by
  unfold FrequencyCounter.sampleBatch
  dsimp only
  split_ifs
  · rw [cleanup_oversample, addFold_oversample]
  · rw [addFold_oversample]

theorem sampleBatch_nodup (fc : FrequencyCounter) (batch : List (Str × ℚ))
    (h : nodupKeys fc.frequencies) :
    nodupKeys (fc.sampleBatch batch).frequencies := by
  unfold FrequencyCounter.sampleBatch
  dsimp only
  split_ifs
  · exact cleanup_nodup _ _ (addFold_nodup _ _ h)
  · exact addFold_nodup _ _ h

theorem sampleBatch_length_le (fc : FrequencyCounter) (batch : List (Str × ℚ))
    (h : nodupKeys fc.frequencies)
    (hstart : fc.frequencies.length ≤ fc.size + fc.oversample_size) :
    (fc.sampleBatch batch).frequencies.length ≤ fc.size + fc.oversample_size := by
  unfold FrequencyCounter.sampleBatch
  dsimp only
  set fc1 := (insSort (fun a b => decide (b.2 ≤ a.2)) batch).foldl
    FrequencyCounter.addBatchEntry fc with hfc1
  have hsz : fc1.size = fc.size := addFold_size _ _
  have hov : fc1.oversample_size = fc.oversample_size := addFold_oversample _ _
  have hnd1 : nodupKeys fc1.frequencies := addFold_nodup _ _ h
  by_cases hover : fc1.size + fc1.oversample_size < fc1.frequencies.length
  · rw [if_pos hover]
    rw [cleanup_length fc1 _ hnd1 (by omega)]
    omega
  · rw [if_neg hover]
    omega

theorem sampleBatch_exact_cleanup (fc : FrequencyCounter) (batch : List (Str × ℚ))
    (h : nodupKeys fc.frequencies)
    (hover : fc.size + fc.oversample_size
      < ((insSort (fun a b => decide (b.2 ≤ a.2)) batch).foldl
          FrequencyCounter.addBatchEntry fc).frequencies.length) :
    (fc.sampleBatch batch).frequencies.length = fc.size + fc.oversample_size := by
  unfold FrequencyCounter.sampleBatch
  dsimp only
  set fc1 := (insSort (fun a b => decide (b.2 ≤ a.2)) batch).foldl
    FrequencyCounter.addBatchEntry fc with hfc1
  have hsz : fc1.size = fc.size := addFold_size _ _
  have hov : fc1.oversample_size = fc.oversample_size := addFold_oversample _ _
  have hnd1 : nodupKeys fc1.frequencies := addFold_nodup _ _ h
  rw [if_pos (by omega)]
  rw [cleanup_length fc1 _ hnd1 (by omega)]
  omega

-- chunkBatch values are nonnegative
theorem chunkBatch_fold_nonneg (chunk : List Str) (acc : Counters)
    (hacc : ∀ q ∈ acc.map Prod.snd, 0 ≤ q) :
    ∀ q ∈ (chunk.foldl (fun b k => assocIncr b k 1) acc).map Prod.snd, 0 ≤ q := by
  induction chunk generalizing acc with
  | nil => exact hacc
  | cons c cs ih =>
    simp only [List.foldl_cons]
    exact ih _ (nonneg_assocIncr _ _ _ hacc (by norm_num))

theorem chunkBatch_nonneg (chunk : List Str) :
    ∀ q ∈ (chunkBatch chunk).map Prod.snd, 0 ≤ q := by
  exact chunkBatch_fold_nonneg chunk [] (by simp)

-- combined invariants
theorem sampleBatch_invariant (fc : FrequencyCounter) (batch : List (Str × ℚ))
    (hnn : ∀ q ∈ fc.frequencies.map Prod.snd, 0 ≤ q)
    (hcov : sumVals fc.frequencies ≤ fc.total_observed)
    (hb : ∀ v ∈ batch.map Prod.snd, 0 ≤ v) :
    (∀ q ∈ (fc.sampleBatch batch).frequencies.map Prod.snd, 0 ≤ q)
    ∧ sumVals (fc.sampleBatch batch).frequencies ≤ (fc.sampleBatch batch).total_observed := by
  have hpermb := insSort_perm (fun a b => decide (b.2 ≤ a.2)) batch
  have hbsum : ((insSort (fun a b => decide (b.2 ≤ a.2)) batch).map Prod.snd).sum
      = (batch.map Prod.snd).sum := (hpermb.map Prod.snd).sum_eq
  have hb2 : ∀ v ∈ (insSort (fun a b => decide (b.2 ≤ a.2)) batch).map Prod.snd, 0 ≤ v := by
    intro v hv
    exact hb v ((hpermb.map Prod.snd).mem_iff.mp hv)
  unfold FrequencyCounter.sampleBatch
  dsimp only
  set fc1 := (insSort (fun a b => decide (b.2 ≤ a.2)) batch).foldl
    FrequencyCounter.addBatchEntry fc with hfc1
  have h1nn : ∀ q ∈ fc1.frequencies.map Prod.snd, 0 ≤ q := addFold_nonneg _ _ hnn hb2
  have h1cov : sumVals fc1.frequencies ≤ fc1.total_observed := by
    rw [hfc1, addFold_sumVals, addFold_total]
    linarith
  split_ifs
  · constructor
    · exact cleanup_nonneg _ _ h1nn
    · rw [cleanup_total]
      exact le_trans (cleanup_sumVals_le _ _ h1nn) h1cov
  · exact ⟨h1nn, h1cov⟩


theorem applyCalls_bound (calls : List FreqCall) (fc : FrequencyCounter)
    (h1 : nodupKeys fc.frequencies)
    (h2 : fc.frequencies.length ≤ fc.size + fc.oversample_size) :
    nodupKeys (calls.foldl applyFreqCall fc).frequencies
    ∧ (calls.foldl applyFreqCall fc).size = fc.size
    ∧ (calls.foldl applyFreqCall fc).oversample_size = fc.oversample_size
    ∧ (calls.foldl applyFreqCall fc).frequencies.length
        ≤ (calls.foldl applyFreqCall fc).size
            + (calls.foldl applyFreqCall fc).oversample_size := by
  induction calls generalizing fc with
  | nil => exact ⟨h1, rfl, rfl, h2⟩
  | cons c cs ih =>
    have hstep_nodup : nodupKeys (applyFreqCall fc c).frequencies := by
      cases c with
      | sample chunk => exact sampleBatch_nodup _ _ h1
      | sampleBatch batch => exact sampleBatch_nodup _ _ h1
    have hstep_size : (applyFreqCall fc c).size = fc.size := by
      cases c with
      | sample chunk => exact sampleBatch_size _ _
      | sampleBatch batch => exact sampleBatch_size _ _
    have hstep_over : (applyFreqCall fc c).oversample_size = fc.oversample_size := by
      cases c with
      | sample chunk => exact sampleBatch_oversample _ _
      | sampleBatch batch => exact sampleBatch_oversample _ _
    have hstep_len : (applyFreqCall fc c).frequencies.length
        ≤ (applyFreqCall fc c).size + (applyFreqCall fc c).oversample_size := by
      rw [hstep_size, hstep_over]
      cases c with
      | sample chunk => exact sampleBatch_length_le _ _ h1 h2
      | sampleBatch batch => exact sampleBatch_length_le _ _ h1 h2
    simp only [List.foldl_cons]
    obtain ⟨ha, hb, hc2, hd⟩ := ih (applyFreqCall fc c) hstep_nodup hstep_len
    exact ⟨ha, hb.trans hstep_size, hc2.trans hstep_over, hd⟩

/-- Claim C8: after every `sample` / `_sample_batch` call, starting from a
fresh counter, the number of retained keys is at most
`size + oversample_size`; and whenever a batch pushes the count above that
bound, `cleanup` removes exactly the `overrun` lowest-count entries, leaving
exactly `size + oversample_size` keys. -/
theorem c8_bounded_memory :
    (∀ (size : Nat) (calls : List FreqCall),
        (calls.foldl applyFreqCall (FrequencyCounter.init size)).frequencies.length
          ≤ size + size)
    ∧ (∀ (fc : FrequencyCounter) (batch : List (Str × ℚ)),
        nodupKeys fc.frequencies →
        fc.size + fc.oversample_size
            < ((insSort (fun a b => decide (b.2 ≤ a.2)) batch).foldl
                FrequencyCounter.addBatchEntry fc).frequencies.length →
        (fc.sampleBatch batch).frequencies.length = fc.size + fc.oversample_size) := by
  constructor
  · intro size calls
    have h := applyCalls_bound calls (FrequencyCounter.init size)
      (by simp [nodupKeys, FrequencyCounter.init]) (by simp [FrequencyCounter.init])
    obtain ⟨_, hs, ho, hlen⟩ := h
    rw [hs, ho] at hlen
    simpa [FrequencyCounter.init] using hlen
  · exact sampleBatch_exact_cleanup

/-- Witness for C8: a counter of size 0 overflows on a one-entry batch and is
cleaned back to the bound `0 + 0 = 0`. -/
theorem c8_witness :
    (FrequencyCounter.sampleBatch (FrequencyCounter.init 0)
      [("a".data, 1)]).frequencies.length = 0 := by
  have h := c8_bounded_memory.2 (FrequencyCounter.init 0) [("a".data, 1)]
    (by simp [nodupKeys, FrequencyCounter.init])
    (by with_unfolding_all decide)
  simpa [FrequencyCounter.init] using h

theorem applyCalls_coverage (calls : List FreqCall) (fc : FrequencyCounter)
    (h1 : ∀ q ∈ fc.frequencies.map Prod.snd, 0 ≤ q)
    (h2 : sumVals fc.frequencies ≤ fc.total_observed)
    (hc : ∀ call ∈ calls, freqCallNonneg call) :
    (∀ q ∈ (calls.foldl applyFreqCall fc).frequencies.map Prod.snd, 0 ≤ q)
    ∧ sumVals (calls.foldl applyFreqCall fc).frequencies
        ≤ (calls.foldl applyFreqCall fc).total_observed := by
  induction calls generalizing fc with
  | nil => exact ⟨h1, h2⟩
  | cons c cs ih =>
    have hstep : (∀ q ∈ (applyFreqCall fc c).frequencies.map Prod.snd, 0 ≤ q)
        ∧ sumVals (applyFreqCall fc c).frequencies
            ≤ (applyFreqCall fc c).total_observed := by
      cases c with
      | sample chunk =>
        exact sampleBatch_invariant fc (chunkBatch chunk) h1 h2 (chunkBatch_nonneg chunk)
      | sampleBatch batch =>
        exact sampleBatch_invariant fc batch h1 h2
          (hc (FreqCall.sampleBatch batch) (by simp))
    simp only [List.foldl_cons]
    exact ih (applyFreqCall fc c) hstep.1 hstep.2
      (fun call hcall => hc call (by simp [hcall]))

/-- Claim C10: `cleanup` deletes entries from `frequencies` but never touches
`total_observed`; provided every sampled count is nonnegative, after any
sequence of `sample` / `_sample_batch` calls starting from a fresh counter,
`coverage` returns a pair `(retained, total)` with `retained ≤ total`. -/
theorem c10_coverage :
    (∀ (fc : FrequencyCounter) (num : Nat),
        (fc.cleanup num).total_observed = fc.total_observed)
    ∧ (∀ (size : Nat) (calls : List FreqCall),
        (∀ call ∈ calls, freqCallNonneg call) →
        (calls.foldl applyFreqCall (FrequencyCounter.init size)).coverage.1
          ≤ (calls.foldl applyFreqCall (FrequencyCounter.init size)).coverage.2) := by
  constructor
  · intro fc num
    exact cleanup_total fc num
  · intro size calls hc
    have h := applyCalls_coverage calls (FrequencyCounter.init size)
      (by simp [FrequencyCounter.init]) (by simp [sumVals, FrequencyCounter.init]) hc
    simpa [FrequencyCounter.coverage, sumVals] using h.2

/-- Witness for C10 at a concrete nonnegative batch followed by a `sample`
call. -/
theorem c10_witness :
    ([FreqCall.sampleBatch [("a".data, 2)], FreqCall.sample ["b".data]].foldl
        applyFreqCall (FrequencyCounter.init 5)).coverage.1
      ≤ ([FreqCall.sampleBatch [("a".data, 2)], FreqCall.sample ["b".data]].foldl
        applyFreqCall (FrequencyCounter.init 5)).coverage.2 := by
  apply c10_coverage.2 5
  intro call hcall
  simp only [List.mem_cons, List.mem_singleton] at hcall
  rcases hcall with h | h | h
  · subst h
    intro v hv
    simp only [List.map_cons, List.map_nil, List.mem_singleton] at hv
    subst hv
    norm_num
  · subst h
    trivial
  · cases h


end Tallier
